import Mathlib

/-!
Shallow embedding of the pyletteyes library (src/pyletteyes/colour.py and
src/pyletteyes/palette.py), together with theorems settling the behaviour
claims of the specification.

Conventions used throughout:
* Python floats are modelled as exact rationals (`ℚ`); the two palette scores
  that call `numpy` square roots are stated over `ℝ`.
* Python strings are modelled as `List Char`.
* Operations that can `raise ValueError` are modelled with `Option` (or
  `Except PalErr` where the spec distinguishes error kinds).
* Python `int(x)` truncation toward zero is `pyInt`; Python's `round`
  (banker's rounding, half to even) is `pyRound`.
-/

/-- Python `round`: round half to even (banker's rounding); on a value whose
fractional part is not exactly 1/2 it agrees with rounding to nearest. -/
def pyRound (x : ℚ) : ℤ :=
  if Int.fract x = 1/2 then (if 2 ∣ ⌊x⌋ then ⌊x⌋ else ⌊x⌋ + 1) else round x

/-- Python `int(x)` applied to a float: truncation toward zero. -/
def pyInt (x : ℚ) : ℤ := if x < 0 then -⌊-x⌋ else ⌊x⌋

/-- A colour: three 8-bit RGB channels (colour.py, class `Colour`).  The range
invariant established by `Colour.__init__` is carried inside the structure. -/
@[ext]
structure Colour where
  r : ℕ
  g : ℕ
  b : ℕ
  r_le : r ≤ 255
  g_le : g ≤ 255
  b_le : b ≤ 255

instance : DecidableEq Colour := fun x y =>
  decidable_of_iff (x.r = y.r ∧ x.g = y.g ∧ x.b = y.b)
    ⟨fun ⟨h1, h2, h3⟩ => Colour.ext h1 h2 h3, fun h => by subst h; exact ⟨rfl, rfl, rfl⟩⟩

/-- `Colour.__init__`: rounds each input to nearest (Python `round`), then
requires every rounded value to lie in [0, 255]; fails otherwise. -/
def mkColour (r g b : ℚ) : Option Colour :=
  if h : 0 ≤ pyRound r ∧ pyRound r ≤ 255 ∧ 0 ≤ pyRound g ∧ pyRound g ≤ 255 ∧
      0 ≤ pyRound b ∧ pyRound b ≤ 255 then
    some ⟨(pyRound r).toNat, (pyRound g).toNat, (pyRound b).toNat,
      by omega, by omega, by omega⟩
  else none

/-- CPython `colorsys.rgb_to_hls` in exact rational arithmetic.
Returns `(h, l, s)` (note the HLS component order of `colorsys`). -/
def rgb_to_hls (r g b : ℚ) : ℚ × ℚ × ℚ :=
  let maxc := max r (max g b)
  let minc := min r (min g b)
  let l := (minc + maxc) / 2
  if minc = maxc then (0, l, 0)
  else
    let s := if l ≤ 1/2 then (maxc - minc) / (maxc + minc)
             else (maxc - minc) / (2 - maxc - minc)
    let rc := (maxc - r) / (maxc - minc)
    let gc := (maxc - g) / (maxc - minc)
    let bc := (maxc - b) / (maxc - minc)
    let h0 := if r = maxc then bc - gc
              else if g = maxc then 2 + rc - bc
              else 4 + gc - rc
    (Int.fract (h0 / 6), l, s)

/-- CPython `colorsys._v` (Python `x % 1.0` on a float is `Int.fract`). -/
def hlsV (m1 m2 hue : ℚ) : ℚ :=
  let h := Int.fract hue
  if h < 1/6 then m1 + (m2 - m1) * h * 6
  else if h < 1/2 then m2
  else if h < 2/3 then m1 + (m2 - m1) * (2/3 - h) * 6
  else m1

/-- CPython `colorsys.hls_to_rgb` in exact rational arithmetic. -/
def hls_to_rgb (h l s : ℚ) : ℚ × ℚ × ℚ :=
  if s = 0 then (l, l, l)
  else
    let m2 := if l ≤ 1/2 then l * (1 + s) else l + s - l * s
    let m1 := 2 * l - m2
    (hlsV m1 m2 (h + 1/3), hlsV m1 m2 h, hlsV m1 m2 (h - 1/3))

/-- `Colour.hsl` property: converts the channels through `rgb_to_hls` and
rearranges HLS to HSL, returning `(h, s, l)`. -/
def Colour.hsl (c : Colour) : ℚ × ℚ × ℚ :=
  let hls := rgb_to_hls ((c.r : ℚ) / 255) ((c.g : ℚ) / 255) ((c.b : ℚ) / 255)
  (hls.1, hls.2.2, hls.2.1)

/-- `Colour.lighten`: raise HSL lightness by `amount` (clamped above at 1),
convert back, truncate each channel and revalidate. -/
def Colour.lighten (c : Colour) (amount : ℚ) : Option Colour :=
  let rgb := hls_to_rgb c.hsl.1 (min 1 (c.hsl.2.2 + amount)) c.hsl.2.1
  mkColour ((pyInt (rgb.1 * 255) : ℤ) : ℚ) ((pyInt (rgb.2.1 * 255) : ℤ) : ℚ)
    ((pyInt (rgb.2.2 * 255) : ℤ) : ℚ)

/-- `Colour.darken`: lower HSL lightness by `amount` (clamped below at 0). -/
def Colour.darken (c : Colour) (amount : ℚ) : Option Colour :=
  let rgb := hls_to_rgb c.hsl.1 (max 0 (c.hsl.2.2 - amount)) c.hsl.2.1
  mkColour ((pyInt (rgb.1 * 255) : ℤ) : ℚ) ((pyInt (rgb.2.1 * 255) : ℤ) : ℚ)
    ((pyInt (rgb.2.2 * 255) : ℤ) : ℚ)

/-- `Colour.get_pastel`: halve saturation (floored at 0.05), scale lightness
by 1.2 (capped at 0.95). -/
def Colour.get_pastel (c : Colour) : Option Colour :=
  let rgb := hls_to_rgb c.hsl.1 (min (19/20) (c.hsl.2.2 * (6/5)))
    (max (1/20) (c.hsl.2.1 * (1/2)))
  mkColour ((pyInt (rgb.1 * 255) : ℤ) : ℚ) ((pyInt (rgb.2.1 * 255) : ℤ) : ℚ)
    ((pyInt (rgb.2.2 * 255) : ℤ) : ℚ)

/-- `Colour.get_complementary`: rotate hue by 0.5 (mod 1). -/
def Colour.get_complementary (c : Colour) : Option Colour :=
  let rgb := hls_to_rgb (Int.fract (c.hsl.1 + 1/2)) c.hsl.2.2 c.hsl.2.1
  mkColour ((pyInt (rgb.1 * 255) : ℤ) : ℚ) ((pyInt (rgb.2.1 * 255) : ℤ) : ℚ)
    ((pyInt (rgb.2.2 * 255) : ℤ) : ℚ)

/-- `Colour.get_analogous`: two hues at `h ± angle/360` (mod 1), same s, l. -/
def Colour.get_analogous (c : Colour) (angle : ℚ) : Option (Colour × Colour) :=
  let rgb1 := hls_to_rgb (Int.fract (c.hsl.1 + angle / 360)) c.hsl.2.2 c.hsl.2.1
  let rgb2 := hls_to_rgb (Int.fract (c.hsl.1 - angle / 360)) c.hsl.2.2 c.hsl.2.1
  (mkColour ((pyInt (rgb1.1 * 255) : ℤ) : ℚ) ((pyInt (rgb1.2.1 * 255) : ℤ) : ℚ)
      ((pyInt (rgb1.2.2 * 255) : ℤ) : ℚ)).bind fun c1 =>
    (mkColour ((pyInt (rgb2.1 * 255) : ℤ) : ℚ) ((pyInt (rgb2.2.1 * 255) : ℤ) : ℚ)
      ((pyInt (rgb2.2.2 * 255) : ℤ) : ℚ)).map fun c2 => (c1, c2)

/-- `Colour.get_triadic`: `get_analogous` with angle 120. -/
def Colour.get_triadic (c : Colour) : Option (Colour × Colour) :=
  c.get_analogous 120

/-! ## Hex parsing and formatting (colour.py `from_hex` / `to_hex`) -/

/-- Hexadecimal digit value, as accepted by Python `int(_, 16)`. -/
def hexVal (c : Char) : Option ℕ :=
  match c with
  | '0' => some 0 | 'a' => some 10 | 'A' => some 10
  | '1' => some 1 | 'b' => some 11 | 'B' => some 11
  | '2' => some 2 | 'c' => some 12 | 'C' => some 12
  | '3' => some 3 | 'd' => some 13 | 'D' => some 13
  | '4' => some 4 | 'e' => some 14 | 'E' => some 14
  | '5' => some 5 | 'f' => some 15 | 'F' => some 15
  | '6' => some 6 | '7' => some 7 | '8' => some 8 | '9' => some 9
  | _ => none

/-- Characters Python `str.strip()` / `int()` treat as (ASCII) whitespace. -/
def pySpace (c : Char) : Bool :=
  c = ' ' ∨ c = '\t' ∨ c = '\n' ∨ c = '\x0d' ∨ c = '\x0b' ∨ c = '\x0c'

/-- CPython `int(s, 16)` restricted to strings of length 2, the only use in
`from_hex`.  The integer grammar allows surrounding whitespace and a sign, so
a length-2 string parses when it is two hex digits, a sign or space followed
by one hex digit, or one hex digit followed by a space. -/
def int16of2 (s : List Char) : Option ℤ :=
  match s with
  | [c1, c2] =>
    match hexVal c1, hexVal c2 with
    | some v1, some v2 => some ((16 * v1 + v2 : ℕ) : ℤ)
    | some v1, none => if pySpace c2 then some ((v1 : ℕ) : ℤ) else none
    | none, some v2 =>
      if c1 = '+' ∨ pySpace c1 then some ((v2 : ℕ) : ℤ)
      else if c1 = '-' then some (-((v2 : ℕ) : ℤ)) else none
    | none, none => none
  | _ => none

/-- `Colour.from_hex`: `lstrip('#')` removes every leading `'#'`; the result
must have length 6; the three 2-character slices are converted with
`int(_, 16)` and passed to the validating constructor.  Any failure
(`ValueError` from `int` or from the constructor) yields the format error. -/
def from_hex (s : List Char) : Option Colour :=
  let t := s.dropWhile (fun c => c = '#')
  if t.length = 6 then
    match int16of2 (t.take 2), int16of2 ((t.drop 2).take 2),
        int16of2 ((t.drop 4).take 2) with
    | some v1, some v2, some v3 => mkColour (v1 : ℚ) (v2 : ℚ) (v3 : ℚ)
    | _, _, _ => none
  else none

/-- Uppercase hexadecimal digit character (values 0–15). -/
def upHexDigit (n : ℕ) : Char :=
  match n with
  | 0 => '0' | 1 => '1' | 2 => '2' | 3 => '3' | 4 => '4'
  | 5 => '5' | 6 => '6' | 7 => '7' | 8 => '8' | 9 => '9'
  | 10 => 'A' | 11 => 'B' | 12 => 'C' | 13 => 'D' | 14 => 'E' | 15 => 'F'
  | _ => '0'

/-- `Colour.to_hex`: `f"#{r:02x}{g:02x}{b:02x}".upper()` — a `'#'` followed by
three 2-digit hex bytes, emitted uppercase. -/
def to_hex (c : Colour) : List Char :=
  '#' :: upHexDigit (c.r / 16) :: upHexDigit (c.r % 16) ::
    upHexDigit (c.g / 16) :: upHexDigit (c.g % 16) ::
    upHexDigit (c.b / 16) :: upHexDigit (c.b % 16) :: []

/-! ## RGB literal strings.

`palette.py` and the test-suite call `Colour.from_string` / `Colour.to_string`,
but these two methods are absent from the `colour.py` under verification; they
are modelled from the spec below. -/

/-- Decimal digit character (values 0–9). -/
def decDigit (n : ℕ) : Char :=
  match n with
  | 0 => '0' | 5 => '5' | 1 => '1' | 6 => '6' | 2 => '2'
  | 7 => '7' | 3 => '3' | 8 => '8' | 4 => '4' | 9 => '9'
  | _ => '0'

/-- Decimal digit value. -/
def decVal (c : Char) : Option ℕ :=
  match c with
  | '0' => some 0 | '5' => some 5 | '1' => some 1 | '6' => some 6 | '2' => some 2
  | '7' => some 7 | '3' => some 3 | '8' => some 8 | '4' => some 4 | '9' => some 9
  | _ => none

/-- Decimal digits of a natural number, most significant first. -/
def natDigits (n : ℕ) : List Char :=
  if h : n < 10 then [decDigit n]
  else natDigits (n / 10) ++ [decDigit (n % 10)]
decreasing_by exact Nat.div_lt_self (by omega) (by omega)

/-- One step of decimal accumulation: fails on a non-digit. -/
def decStep : Option ℕ → Char → Option ℕ
  | some a, c =>
    match decVal c with
    | some d => some (10 * a + d)
    | none => none
  | none, _ => none

/-- Parse a non-empty all-digit string to a natural number. -/
def decDigitsVal (s : List Char) : Option ℕ :=
  match s with
  | [] => none
  | _ => s.foldl decStep (some 0)

/-- Strip leading and trailing whitespace (Python `str.strip()`). -/
def trimChars (s : List Char) : List Char :=
  ((s.dropWhile pySpace).reverse.dropWhile pySpace).reverse

/-- Split a character list on a separator character. -/
def splitOnChar (sep : Char) : List Char → List (List Char)
  | [] => [[]]
  | c :: cs =>
    if c = sep then [] :: splitOnChar sep cs
    else
      match splitOnChar sep cs with
      | [] => [[c]]
      | g :: gs => (c :: g) :: gs

/-- Modelled from the spec: one comma-separated component of an rgb literal —
surrounding whitespace is tolerated, the body must be an integer (an optional
sign followed by decimal digits only, so decimals are rejected). -/
def parseComp (s : List Char) : Option ℤ :=
  match trimChars s with
  | [] => none
  | c :: cs =>
    if c = '-' then (decDigitsVal cs).map (fun n => -(n : ℤ))
    else (decDigitsVal (c :: cs)).map (fun n => (n : ℤ))

/-- Modelled from the spec: `Colour.from_string` (called by
`Palette.from_string_list` and the tests but missing from colour.py).  Parses
the literal pattern `rgb(R, G, B)`: arbitrary surrounding whitespace,
comma-separated, exactly three integer components, each in [0, 255]; fails
otherwise. -/
def from_rgb_string (s : List Char) : Option Colour :=
  let t := trimChars s
  if t.take 4 = ['r', 'g', 'b', '('] ∧ t.getLast? = some ')' then
    match splitOnChar ',' ((t.drop 4).dropLast) with
    | [a1, a2, a3] =>
      match parseComp a1, parseComp a2, parseComp a3 with
      | some v1, some v2, some v3 =>
        if h : 0 ≤ v1 ∧ v1 ≤ 255 ∧ 0 ≤ v2 ∧ v2 ≤ 255 ∧ 0 ≤ v3 ∧ v3 ≤ 255 then
          some ⟨v1.toNat, v2.toNat, v3.toNat, by omega, by omega, by omega⟩
        else none
      | _, _, _ => none
    | _ => none
  else none

/-- Modelled from the spec: `Colour.to_string` (called by
`Palette.to_string_list` and the tests but missing from colour.py).  Emits
`rgb(R, G, B)` with a single space after each comma. -/
def to_rgb_string (c : Colour) : List Char :=
  'r' :: 'g' :: 'b' :: '(' ::
    (natDigits c.r ++ ',' :: ' ' :: (natDigits c.g ++ ',' :: ' ' :: (natDigits c.b ++ [')'])))

/-! ## Palette (palette.py).

A palette's state is its colour list; the class invariant (non-emptiness) is
what claim C8 is about, so the state type is a bare `List Colour` and the
validating operations are explicit. -/

/-- The two `ValueError` kinds of palette.py as classified by the spec. -/
inductive PalErr where
  | notFound
  | invariant
deriving DecidableEq

/-- `Palette.__init__`: rejects an empty colour list. -/
def mkPalette (colours : List Colour) : Except PalErr (List Colour) :=
  if colours = [] then .error .invariant else .ok colours

/-- `Palette.add_colour`: appends, always succeeds. -/
def add_colour (p : List Colour) (c : Colour) : List Colour := p ++ [c]

/-- `Palette.remove_colour`: membership is checked first (`NotFoundError`),
then the size guard (`InvariantError`), then `list.remove` deletes the first
element equal (by RGB equality) to the argument. -/
def remove_colour (p : List Colour) (c : Colour) : Except PalErr (List Colour) :=
  if c ∈ p then
    if p.length ≤ 1 then .error .invariant else .ok (p.erase c)
  else .error .notFound

/-- Palette states reachable through the public operations. -/
inductive ReachablePalette : List Colour → Prop where
  | init : ∀ l p, mkPalette l = .ok p → ReachablePalette p
  | add : ∀ p c, ReachablePalette p → ReachablePalette (add_colour p c)
  | rem : ∀ p c p', ReachablePalette p → remove_colour p c = .ok p' → ReachablePalette p'

/-- The list comprehension `[Colour.from_hex(s) for s in hex_colours]`: the
first failing parse aborts the whole construction. -/
def parseHexList : List (List Char) → Option (List Colour)
  | [] => some []
  | s :: rest =>
    match from_hex s, parseHexList rest with
    | some c, some cs => some (c :: cs)
    | _, _ => none

/-- `Palette.from_hex_list` followed by `Palette.__init__`. -/
def from_hex_list (l : List (List Char)) : Option (List Colour) :=
  (parseHexList l).bind (fun cs => (mkPalette cs).toOption)

/-- `Palette.to_hex_list`. -/
def to_hex_list (p : List Colour) : List (List Char) := p.map to_hex

/-! ## Scoring functions -/

/-- Arithmetic mean (`sum(xs)/len(xs)`, `np.mean`). -/
def mean (l : List ℚ) : ℚ := l.sum / l.length

/-- Arithmetic mean over the reals. -/
noncomputable def meanR (l : List ℝ) : ℝ := l.sum / l.length

/-- The unordered pairs enumerated by the nested loops
`for i, c1 in enumerate(xs): for c2 in xs[i+1:]`. -/
def pairList : List α → List (α × α)
  | [] => []
  | x :: xs => xs.map (fun y => (x, y)) ++ pairList xs

/-- Luminance `0.299*r + 0.587*g + 0.114*b` used by `score_contrast`. -/
def luminance (c : Colour) : ℚ :=
  299/1000 * (c.r : ℚ) + 587/1000 * (c.g : ℚ) + 114/1000 * (c.b : ℚ)

/-- `Palette.score_contrast`. -/
def score_contrast (l : List Colour) : ℚ :=
  if l.length < 2 then 1
  else mean ((pairList l).map (fun p => |luminance p.1 - luminance p.2| / 255))

/-- `Palette.score_uniqueness` (numpy Euclidean RGB distance). -/
noncomputable def score_uniqueness (l : List Colour) : ℝ :=
  if l.length < 2 then 1
  else 1 - meanR ((pairList l).map (fun p =>
    1 - Real.sqrt (((p.1.r : ℝ) - (p.2.r : ℝ))^2 + ((p.1.g : ℝ) - (p.2.g : ℝ))^2 +
        ((p.1.b : ℝ) - (p.2.b : ℝ))^2) / (44167/100)))

/-- The per-pair harmony value of `Palette.score_harmony`: the maximum of the
four bucket scores and the fallback `0.5 - min(...)`. -/
def harmonyPair (h1 h2 : ℚ) : ℚ :=
  let hue_diff := min |h1 - h2| (1 - |h1 - h2|)
  max (if hue_diff < 1/100 then 1 else 0)
    (max (if |hue_diff - 1/6| < 1/10 then 4/5 else 0)
      (max (if |hue_diff - 1/3| < 1/10 then 9/10 else 0)
        (max (if |hue_diff - 1/2| < 1/10 then 17/20 else 0)
          (1/2 - min |hue_diff - 0|
            (min |hue_diff - 1/6| (min |hue_diff - 1/3| |hue_diff - 1/2|))))))

/-- `Palette.score_harmony`. -/
def score_harmony (l : List Colour) : ℚ :=
  if l.length < 2 then 1
  else mean ((pairList l).map (fun p => harmonyPair p.1.hsl.1 p.2.hsl.1))

/-- `Palette.score_saturation_variation` (`np.std`, population standard
deviation of the saturations). -/
noncomputable def score_saturation_variation (l : List Colour) : ℝ :=
  if l.length < 2 then 1
  else Real.sqrt (meanR (l.map (fun c =>
    ((c.hsl.2.1 : ℝ) - meanR (l.map (fun d => (d.hsl.2.1 : ℝ))))^2)))

/-- `Palette.score_temperature_variation` (warm iff hue ≤ 0.167 or ≥ 0.833). -/
def score_temperature_variation (l : List Colour) : ℚ :=
  if l.length < 2 then 1
  else
    let hues := l.map (fun c => c.hsl.1)
    let warm := hues.countP (fun h => h ≤ 167/1000 ∨ 833/1000 ≤ h)
    1 - |(warm : ℚ) - ((hues.length - warm : ℕ) : ℚ)| / (hues.length : ℚ)

/-- The spec's wording of the temperature metric: warm iff hue ≤ 1/6 or
hue ≥ 5/6, score `1 - |warm - cool| / total` (for comparison with the code's
0.167 / 0.833 thresholds). -/
def score_temperature_spec (l : List Colour) : ℚ :=
  if l.length < 2 then 1
  else
    let hues := l.map (fun c => c.hsl.1)
    let warm := hues.countP (fun h => h ≤ 1/6 ∨ 5/6 ≤ h)
    1 - |(warm : ℚ) - ((hues.length - warm : ℕ) : ℚ)| / (hues.length : ℚ)

/-- `Palette.score_brightness`: mean lightness — note: no size guard. -/
def score_brightness (l : List Colour) : ℚ :=
  mean (l.map (fun c => c.hsl.2.2))

/-- `Palette.score_brightness_balance`. -/
def score_brightness_balance (l : List Colour) : ℚ :=
  if l.length < 2 then 1
  else 1 - |mean (l.map (fun c => c.hsl.2.2)) - 1/2| * 2

/-! ## Concrete colours used by witnesses and counterexamples -/

def colRed : Colour := ⟨255, 0, 0, by omega, by omega, by omega⟩

def colBlue : Colour := ⟨0, 0, 255, by omega, by omega, by omega⟩

def colBlack : Colour := ⟨0, 0, 0, by omega, by omega, by omega⟩

def colWhite : Colour := ⟨255, 255, 255, by omega, by omega, by omega⟩

/-- The sixteen canonical (uppercase) hexadecimal digit characters. -/
def upperHexChars : List Char :=
  ['0', '1', '2', '3', '4', '5', '6', '7', '8', '9', 'A', 'B', 'C', 'D', 'E', 'F']

/-- A canonical hex colour string: `'#'` followed by exactly six uppercase
hexadecimal digits — the exact output format of `to_hex`. -/
def isCanonHex (s : List Char) : Bool :=
  match s with
  | '#' :: rest => rest.length = 6 && rest.all (fun c => upperHexChars.contains c)
  | _ => false

instance {ε α : Type _} [DecidableEq ε] [DecidableEq α] : DecidableEq (Except ε α) :=
  fun x y =>
    match x, y with
    | .error a, .error b => decidable_of_iff (a = b) (by simp)
    | .ok a, .ok b => decidable_of_iff (a = b) (by simp)
    | .error _, .ok _ => isFalse (by simp)
    | .ok _, .error _ => isFalse (by simp)

/-! ## C2: behaviour of the seven scoring functions on sub-2-colour palettes -/

/-- C2 (counterexample): `score_brightness` does not return 1.0 on every
palette of fewer than 2 colours: on the singleton black palette it returns the
mean lightness 0. -/
theorem score_brightness_black_singleton :
    score_brightness [colBlack] = 0 ∧ score_brightness [colBlack] ≠ 1 := by
  have h : score_brightness [colBlack] = 0 := by
    norm_num [score_brightness, mean, Colour.hsl, rgb_to_hls, colBlack]
  exact ⟨h, by rw [h]; norm_num⟩

/-- C2 (amended): on a palette with fewer than 2 colours (i.e. a singleton,
palettes being non-empty) the six guarded scoring functions return exactly 1.0,
while `score_brightness` — which has no size guard — returns the mean HSL
lightness, i.e. the single colour's lightness. -/
theorem singleton_scores (c : Colour) :
    score_contrast [c] = 1 ∧ score_uniqueness [c] = 1 ∧ score_harmony [c] = 1 ∧
    score_saturation_variation [c] = 1 ∧ score_temperature_variation [c] = 1 ∧
    score_brightness_balance [c] = 1 ∧ score_brightness [c] = c.hsl.2.2 := by
  refine ⟨?_, ?_, ?_, ?_, ?_, ?_, ?_⟩ <;>
    simp [score_contrast, score_uniqueness, score_harmony, score_saturation_variation,
      score_temperature_variation, score_brightness_balance, score_brightness, mean]

/-! ## C8: the palette non-emptiness invariant -/

/-- C8 (counterexample): on a size-1 palette, `remove_colour` of an absent
colour fails with `NotFoundError`, not `InvariantError` — the membership check
runs first — so "remove fails with InvariantError whenever the current size
is ≤ 1" is false as stated. -/
theorem remove_singleton_absent :
    remove_colour [colRed] colBlue = Except.error PalErr.notFound ∧
    PalErr.notFound ≠ PalErr.invariant := by
  constructor
  · decide
  · decide

/-- C8 (amended): construction from an empty list fails with `InvariantError`;
`remove_colour` on a palette of size ≤ 1 fails with `InvariantError` when the
colour is present (and with `NotFoundError` when it is absent); `add_colour`
always succeeds and never empties the palette; hence no reachable palette
state is empty. -/
theorem palette_invariant_ops :
    mkPalette [] = Except.error PalErr.invariant ∧
    (∀ (p : List Colour) (c : Colour), c ∈ p → p.length ≤ 1 →
      remove_colour p c = Except.error PalErr.invariant) ∧
    (∀ (p : List Colour) (c : Colour), c ∉ p →
      remove_colour p c = Except.error PalErr.notFound) ∧
    (∀ (p : List Colour) (c : Colour), add_colour p c ≠ []) ∧
    (∀ p : List Colour, ReachablePalette p → p ≠ []) := by
  refine ⟨rfl, ?_, ?_, ?_, ?_⟩
  · intro p c hc hl
    simp [remove_colour, hc, hl]
  · intro p c hc
    simp [remove_colour, hc]
  · intro p c h
    simp [add_colour] at h
  · intro p h
    induction h with
    | init l q hl =>
      by_cases he : l = []
      · subst he
        simp [mkPalette] at hl
      · simp only [mkPalette, if_neg he, Except.ok.injEq] at hl
        subst hl
        exact he
    | add p c hp ih =>
      simp [add_colour]
    | rem p c p' hp hrm ih =>
      simp only [remove_colour] at hrm
      split_ifs at hrm with hmem hlen
      have hlen' : (p.erase c).length = p.length - 1 := List.length_erase_of_mem hmem
      simp only [Except.ok.injEq] at hrm
      subst hrm
      intro hcontra
      have h0 : (p.erase c).length = 0 := by rw [hcontra]; rfl
      omega

/-! ## C9: `remove_colour` removes exactly the first RGB-equal element -/

/-- C9: on a palette of size ≥ 2, removing a present colour deletes exactly
the first element equal to it (Colour equality is RGB equality), leaving the
other elements and their order unchanged; removing an absent colour fails
with `NotFoundError` (and, the model being functional, no partial state
exists). -/
theorem remove_colour_first_match (p : List Colour) (c : Colour) (h2 : 2 ≤ p.length) :
    (c ∈ p → ∃ l1 l2, p = l1 ++ c :: l2 ∧ c ∉ l1 ∧
      remove_colour p c = Except.ok (l1 ++ l2)) ∧
    (c ∉ p → remove_colour p c = Except.error PalErr.notFound) := by
  constructor
  · intro hc
    obtain ⟨l1, l2, hn, he, her⟩ := List.exists_erase_eq hc
    refine ⟨l1, l2, he, hn, ?_⟩
    have hlen : ¬ p.length ≤ 1 := by omega
    simp [remove_colour, hc, hlen, her]
  · intro hc
    simp [remove_colour, hc]

/-- C9 (witness): the theorem applied to the concrete palette `[red, blue]`. -/
theorem remove_colour_first_match_witness :
    2 ≤ ([colRed, colBlue] : List Colour).length ∧
    ((colRed ∈ ([colRed, colBlue] : List Colour) → ∃ l1 l2,
        ([colRed, colBlue] : List Colour) = l1 ++ colRed :: l2 ∧ colRed ∉ l1 ∧
        remove_colour [colRed, colBlue] colRed = Except.ok (l1 ++ l2)) ∧
      (colRed ∉ ([colRed, colBlue] : List Colour) →
        remove_colour [colRed, colBlue] colRed = Except.error PalErr.notFound)) :=
  ⟨by decide, remove_colour_first_match [colRed, colBlue] colRed (by decide)⟩

/-! ## Hue arithmetic lemmas -/

/-- The hue produced by `rgb_to_hls` lies in [0, 1). -/
theorem rgb_to_hls_h_mem (r g b : ℚ) :
    0 ≤ (rgb_to_hls r g b).1 ∧ (rgb_to_hls r g b).1 < 1 := by
  simp only [rgb_to_hls]
  split_ifs <;>
    exact ⟨by simp [Int.fract_nonneg], by simp [Int.fract_lt_one]⟩

/-- A colour's hue lies in [0, 1). -/
theorem hue_mem (c : Colour) : 0 ≤ c.hsl.1 ∧ c.hsl.1 < 1 := by
  simp only [Colour.hsl]
  exact rgb_to_hls_h_mem _ _ _

/-- Fractional part of an integer ratio: `fract (a / b) = (a mod b) / b`. -/
theorem fract_ratio (a : ℤ) (b : ℕ) (hb : 0 < b) :
    ∃ z : ℤ, 0 ≤ z ∧ z < b ∧ Int.fract ((a : ℚ) / b) = (z : ℚ) / b := by
  have hbQ : (0 : ℚ) < (b : ℚ) := by exact_mod_cast hb
  have hbZ : (0 : ℤ) < (b : ℤ) := by exact_mod_cast hb
  have hmod0 : (0 : ℤ) ≤ a % (b : ℤ) := Int.emod_nonneg a hbZ.ne'
  have hmodlt : a % (b : ℤ) < (b : ℤ) := Int.emod_lt_of_pos a hbZ
  refine ⟨a % b, hmod0, hmodlt, ?_⟩
  have h := Int.ediv_add_emod a (b : ℤ)
  have hQ : ((b : ℚ)) * ((a / (b : ℤ) : ℤ) : ℚ) + ((a % (b : ℤ) : ℤ) : ℚ) = (a : ℚ) := by
    exact_mod_cast congrArg (fun z : ℤ => (z : ℚ)) h
  have hdiv : (a : ℚ) / b = ((a / (b : ℤ) : ℤ) : ℚ) + ((a % (b : ℤ) : ℤ) : ℚ) / b := by
    field_simp
    linarith
  rw [hdiv, Int.fract_int_add]
  rw [Int.fract_eq_self.mpr ⟨div_nonneg (by exact_mod_cast hmod0) hbQ.le,
    by rw [div_lt_one hbQ]; exact_mod_cast hmodlt⟩]


/-- Projection helper for triple literals. -/
theorem prod3_fst (a b c : ℚ) : (a, b, c).1 = a := rfl

/-- Auxiliary: `fract ((k + (p - q)/d) / 6)` is a fraction with denominator `6*d`. -/
theorem fract_shift_ratio (k : ℤ) (pn qn dn : ℕ) (hd : 0 < dn) (x : ℚ)
    (hx : x = ((k : ℤ) : ℚ) + ((pn : ℚ) - (qn : ℚ)) / (dn : ℚ)) :
    ∃ z : ℤ, 0 ≤ z ∧ z < 6 * dn ∧ Int.fract (x / 6) = (z : ℚ) / ((6 * dn : ℕ) : ℚ) := by
  have hdQ : (0 : ℚ) < (dn : ℚ) := by exact_mod_cast hd
  have harg : x / 6 = ((k * dn + ((pn : ℤ) - (qn : ℤ)) : ℤ) : ℚ) / ((6 * dn : ℕ) : ℚ) := by
    subst hx
    push_cast
    rw [div_eq_div_iff (by norm_num : (6 : ℚ) ≠ 0) (mul_pos (by norm_num : (0:ℚ) < 6) hdQ).ne']
    field_simp
    ring
  rw [harg]
  obtain ⟨z, h0, hlt, heq⟩ := fract_ratio (k * dn + ((pn : ℤ) - (qn : ℤ))) (6 * dn) (by omega)
  exact ⟨z, h0, by exact_mod_cast hlt, heq⟩

/-- Every hue produced by `rgb_to_hls` on 8-bit channels is a fraction
`z / (6*m)` with `1 ≤ m ≤ 255` and `0 ≤ z < 6*m`: hue values have bounded
denominator, which is what separates the 0.167/0.833 thresholds from 1/6 and
5/6. -/
theorem rgb_to_hls_h_ratio (rn gn bn : ℕ) (hr : rn ≤ 255) (hg : gn ≤ 255) (hb : bn ≤ 255) :
    ∃ (m : ℕ) (z : ℤ), 1 ≤ m ∧ m ≤ 255 ∧ 0 ≤ z ∧ z < 6 * m ∧
      (rgb_to_hls ((rn : ℚ) / 255) ((gn : ℚ) / 255) ((bn : ℚ) / 255)).1 =
        (z : ℚ) / ((6 * m : ℕ) : ℚ) := by
  have hM : max ((rn : ℚ) / 255) (max ((gn : ℚ) / 255) ((bn : ℚ) / 255)) =
      ((max rn (max gn bn) : ℕ) : ℚ) / 255 := by
    rw [max_div_div_right (by norm_num : (0 : ℚ) ≤ 255),
      max_div_div_right (by norm_num : (0 : ℚ) ≤ 255)]
    push_cast
    ring
  have hm : min ((rn : ℚ) / 255) (min ((gn : ℚ) / 255) ((bn : ℚ) / 255)) =
      ((min rn (min gn bn) : ℕ) : ℚ) / 255 := by
    rw [min_div_div_right (by norm_num : (0 : ℚ) ≤ 255),
      min_div_div_right (by norm_num : (0 : ℚ) ≤ 255)]
    push_cast
    ring
  set Mn := max rn (max gn bn) with hMndef
  set mn := min rn (min gn bn) with hmndef
  have hmnle : mn ≤ Mn := le_trans (Nat.min_le_left _ _) (Nat.le_max_left _ _)
  have hMn255 : Mn ≤ 255 := max_le hr (max_le hg hb)
  simp only [rgb_to_hls]
  rw [hM, hm]
  by_cases heq : mn = Mn
  · rw [if_pos (by rw [heq])]
    exact ⟨1, 0, le_refl 1, by omega, le_refl 0, by omega, by norm_num⟩
  · have hne : ¬ ((mn : ℚ) / 255 = (Mn : ℚ) / 255) := by
      intro hc
      apply heq
      field_simp at hc
      exact_mod_cast hc
    rw [if_neg hne]
    have hlt : mn < Mn := lt_of_le_of_ne hmnle heq
    have hdQ : (Mn : ℚ) / 255 - (mn : ℚ) / 255 = ((Mn - mn : ℕ) : ℚ) / 255 := by
      push_cast [Nat.cast_sub hmnle]
      ring
    have hdpos : 0 < Mn - mn := by omega
    have hdnQ : ((Mn - mn : ℕ) : ℚ) ≠ 0 := by
      have h' : (0 : ℚ) < ((Mn - mn : ℕ) : ℚ) := by exact_mod_cast hdpos
      exact h'.ne'
    rw [hdQ, prod3_fst]
    split_ifs with hR hG
    · -- r is the max channel: h0 = (g - b)/d
      obtain ⟨z, h0, hlt6, heq6⟩ := fract_shift_ratio 0 gn bn (Mn - mn) hdpos
        (((Mn : ℚ) / 255 - (bn : ℚ) / 255) / (((Mn - mn : ℕ) : ℚ) / 255) -
          ((Mn : ℚ) / 255 - (gn : ℚ) / 255) / (((Mn - mn : ℕ) : ℚ) / 255))
        (by push_cast; field_simp; rw [div_sub_div_same]; congr 1; ring)
      exact ⟨Mn - mn, z, by omega, by omega, h0, hlt6, heq6⟩
    · -- g is the max channel: h0 = 2 + (b - r)/d
      obtain ⟨z, h0, hlt6, heq6⟩ := fract_shift_ratio 2 bn rn (Mn - mn) hdpos
        (2 + ((Mn : ℚ) / 255 - (rn : ℚ) / 255) / (((Mn - mn : ℕ) : ℚ) / 255) -
          ((Mn : ℚ) / 255 - (bn : ℚ) / 255) / (((Mn - mn : ℕ) : ℚ) / 255))
        (by push_cast; field_simp; ring)
      exact ⟨Mn - mn, z, by omega, by omega, h0, hlt6, heq6⟩
    · -- b is the max channel: h0 = 4 + (r - g)/d
      obtain ⟨z, h0, hlt6, heq6⟩ := fract_shift_ratio 4 rn gn (Mn - mn) hdpos
        (4 + ((Mn : ℚ) / 255 - (gn : ℚ) / 255) / (((Mn - mn : ℕ) : ℚ) / 255) -
          ((Mn : ℚ) / 255 - (rn : ℚ) / 255) / (((Mn - mn : ℕ) : ℚ) / 255))
        (by push_cast; field_simp; ring)
      exact ⟨Mn - mn, z, by omega, by omega, h0, hlt6, heq6⟩

/-- A colour's hue as a bounded-denominator fraction. -/
theorem hue_ratio (c : Colour) :
    ∃ (m : ℕ) (z : ℤ), 1 ≤ m ∧ m ≤ 255 ∧ 0 ≤ z ∧ z < 6 * m ∧
      c.hsl.1 = (z : ℚ) / ((6 * m : ℕ) : ℚ) := by
  simp only [Colour.hsl]
  exact rgb_to_hls_h_ratio c.r c.g c.b c.r_le c.g_le c.b_le

/-- The code's 0.167/0.833 warm-hue thresholds classify every constructible
colour exactly as the spec's 1/6 and 5/6 do. -/
theorem warm_classification (c : Colour) :
    (c.hsl.1 ≤ 167/1000 ∨ 833/1000 ≤ c.hsl.1) ↔ (c.hsl.1 ≤ 1/6 ∨ 5/6 ≤ c.hsl.1) := by
  obtain ⟨m, z, hm1, hm255, hz0, hzlt, heq⟩ := hue_ratio c
  rw [heq]
  have hmQ : (1 : ℚ) ≤ (m : ℚ) := by exact_mod_cast hm1
  have hmQ' : ((m : ℚ)) ≤ 255 := by exact_mod_cast hm255
  have hden : (0 : ℚ) < ((6 * m : ℕ) : ℚ) := by
    push_cast
    linarith
  have hcast : ((6 * m : ℕ) : ℚ) = 6 * (m : ℚ) := by push_cast; ring
  constructor
  · rintro (h | h)
    · left
      rw [div_le_iff hden] at h ⊢
      rw [hcast] at h ⊢
      -- integrality: z ≤ 1.002 m and z, m integers with m ≤ 255 force z ≤ m
      have hzm : z ≤ m := by
        by_contra hc
        push_neg at hc
        have hc' : ((m : ℤ) + 1 : ℚ) ≤ (z : ℚ) := by exact_mod_cast hc
        push_cast at hc'
        linarith
      have : (z : ℚ) ≤ (m : ℚ) := by exact_mod_cast hzm
      linarith
    · right
      rw [le_div_iff hden] at h ⊢
      rw [hcast] at h ⊢
      have hzm : 5 * (m : ℤ) ≤ z := by
        by_contra hc
        push_neg at hc
        have hc1 : z ≤ 5 * (m : ℤ) - 1 := by omega
        have hc' : (z : ℚ) ≤ 5 * (m : ℚ) - 1 := by exact_mod_cast hc1
        linarith
      have : (5 * (m : ℚ)) ≤ (z : ℚ) := by exact_mod_cast hzm
      linarith
  · rintro (h | h)
    · left
      rw [div_le_iff hden] at h ⊢
      rw [hcast] at h ⊢
      have hmQ0 : (0 : ℚ) ≤ (m : ℚ) := by linarith
      linarith
    · right
      rw [le_div_iff hden] at h ⊢
      rw [hcast] at h ⊢
      linarith

/-- C5: for palettes of at least 2 colours, `score_temperature_variation`
computes exactly the spec's formula `1 - |warm - cool| / total` with warm
defined by hue ≤ 1/6 or hue ≥ 5/6: the 0.167/0.833 thresholds of the code
classify every constructible colour identically. -/
theorem temperature_matches_spec (l : List Colour) (h2 : 2 ≤ l.length) :
    score_temperature_variation l = score_temperature_spec l := by
  have hn : ¬ l.length < 2 := by omega
  simp only [score_temperature_variation, score_temperature_spec, if_neg hn]
  have hcount : (l.map (fun c => c.hsl.1)).countP (fun h => h ≤ 167/1000 ∨ 833/1000 ≤ h) =
      (l.map (fun c => c.hsl.1)).countP (fun h => h ≤ 1/6 ∨ 5/6 ≤ h) := by
    apply List.countP_congr
    intro x hx
    obtain ⟨c, _, rfl⟩ := List.mem_map.mp hx
    constructor
    · intro hp
      simp only [decide_eq_true_eq] at hp ⊢
      exact (warm_classification c).mp hp
    · intro hp
      simp only [decide_eq_true_eq] at hp ⊢
      exact (warm_classification c).mpr hp
  rw [hcount]

/-- C5 (witness): the theorem applied to the concrete two-colour palette
`[red, blue]`. -/
theorem temperature_matches_spec_witness :
    2 ≤ ([colRed, colBlue] : List Colour).length ∧
    score_temperature_variation [colRed, colBlue] = score_temperature_spec [colRed, colBlue] :=
  ⟨by decide, temperature_matches_spec [colRed, colBlue] (by decide)⟩

/-! ## C3: the per-pair harmony value -/

/-- For hues in [0, 1) the per-pair harmony value is at least 5/12: the
circular distance `d` lies in [0, 1/2], so its distance to the nearest of
0, 1/6, 1/3, 1/2 never exceeds 1/12 and the fallback `0.5 - min(...)` is at
least `0.5 - 1/12`. -/
theorem harmonyPair_ge (h1 h2 : ℚ) (hh1 : 0 ≤ h1) (hh1' : h1 < 1)
    (hh2 : 0 ≤ h2) (hh2' : h2 < 1) : 5/12 ≤ harmonyPair h1 h2 := by
  have habs0 : 0 ≤ |h1 - h2| := abs_nonneg _
  have habs1 : |h1 - h2| < 1 := abs_sub_lt_iff.mpr ⟨by linarith, by linarith⟩
  simp only [harmonyPair]
  set D := |h1 - h2| with hD
  set d := min D (1 - D) with hd
  have hd0 : 0 ≤ d := le_min habs0 (by linarith)
  have hdh : d ≤ 1/2 := by
    rcases le_total D (1/2) with h | h
    · exact le_trans (min_le_left _ _) h
    · exact le_trans (min_le_right _ _) (by linarith)
  have key : min |d - 0| (min |d - 1/6| (min |d - 1/3| |d - 1/2|)) ≤ 1/12 := by
    rcases le_total d (1/12) with h | h
    · refine le_trans (min_le_left _ _) ?_
      rw [sub_zero, abs_of_nonneg hd0]
      exact h
    · rcases le_total d (1/4) with h' | h'
      · refine le_trans (le_trans (min_le_right _ _) (min_le_left _ _)) ?_
        rw [abs_le]
        constructor <;> linarith
      · rcases le_total d (5/12) with h'' | h''
        · refine le_trans (le_trans (min_le_right _ _)
            (le_trans (min_le_right _ _) (min_le_left _ _))) ?_
          rw [abs_le]
          constructor <;> linarith
        · refine le_trans (le_trans (min_le_right _ _)
            (le_trans (min_le_right _ _) (min_le_right _ _))) ?_
          rw [abs_le]
          constructor <;> linarith
  have hF : 5/12 ≤ 1/2 - min |d - 0| (min |d - 1/6| (min |d - 1/3| |d - 1/2|)) := by
    linarith
  exact le_trans hF (le_trans (le_max_right _ _) (le_trans (le_max_right _ _)
    (le_trans (le_max_right _ _) (le_max_right _ _))))

/-- C3 (counterexample, the claim's negation): no pair of colours makes the
per-pair harmony value of `score_harmony` negative. -/
theorem harmony_pair_never_negative :
    ¬ ∃ c1 c2 : Colour, harmonyPair c1.hsl.1 c2.hsl.1 < 0 := by
  rintro ⟨c1, c2, hlt⟩
  obtain ⟨ha1, ha2⟩ := hue_mem c1
  obtain ⟨hb1, hb2⟩ := hue_mem c2
  have := harmonyPair_ge c1.hsl.1 c2.hsl.1 ha1 ha2 hb1 hb2
  linarith

/-- C3 (amended): for every pair of colours the per-pair harmony value of
`score_harmony` is at least 5/12 — in particular it is never negative, since
hues lie in [0, 1) and the fallback's minimum-distance term never exceeds
1/12. -/
theorem harmony_pair_lower_bound (c1 c2 : Colour) :
    5/12 ≤ harmonyPair c1.hsl.1 c2.hsl.1 := by
  obtain ⟨ha1, ha2⟩ := hue_mem c1
  obtain ⟨hb1, hb2⟩ := hue_mem c2
  exact harmonyPair_ge c1.hsl.1 c2.hsl.1 ha1 ha2 hb1 hb2

/-- C8 (witness): the amended theorem applied at concrete palettes. -/
theorem palette_invariant_ops_witness :
    remove_colour [colRed] colRed = Except.error PalErr.invariant ∧
    ([colRed] : List Colour) ≠ [] :=
  ⟨palette_invariant_ops.2.1 [colRed] colRed (by decide) (by decide),
   palette_invariant_ops.2.2.2.2 [colRed]
     (ReachablePalette.init [colRed] [colRed] (by decide))⟩

/-! ## C7 / C6: hex parsing and formatting -/

/-- Python `round` is the identity on integers. -/
theorem pyRound_intCast (z : ℤ) : pyRound (z : ℚ) = z := by
  rw [pyRound, if_neg]
  · exact round_intCast z
  · rw [Int.fract_intCast]
    norm_num

/-- `Colour.__init__` on integer inputs: succeeds exactly on channel values
in [0, 255], producing those values unchanged. -/
theorem mkColour_int_eq (z1 z2 z3 : ℤ) (h1 : 0 ≤ z1) (h2 : z1 ≤ 255) (h3 : 0 ≤ z2)
    (h4 : z2 ≤ 255) (h5 : 0 ≤ z3) (h6 : z3 ≤ 255) :
    mkColour (z1 : ℚ) (z2 : ℚ) (z3 : ℚ) =
      some ⟨z1.toNat, z2.toNat, z3.toNat, by omega, by omega, by omega⟩ := by
  rw [mkColour, dif_pos (by simp only [pyRound_intCast]; omega)]
  simp only [pyRound_intCast]

/-- `Colour.__init__` on integer inputs: fails outside [0, 255]. -/
theorem mkColour_int_none (z1 z2 z3 : ℤ)
    (h : ¬ (0 ≤ z1 ∧ z1 ≤ 255 ∧ 0 ≤ z2 ∧ z2 ≤ 255 ∧ 0 ≤ z3 ∧ z3 ≤ 255)) :
    mkColour (z1 : ℚ) (z2 : ℚ) (z3 : ℚ) = none := by
  rw [mkColour, dif_neg]
  simpa only [pyRound_intCast] using h

/-- `mkColour` on integer inputs succeeds iff all three lie in [0, 255]. -/
theorem mkColour_int_isSome (z1 z2 z3 : ℤ) :
    (mkColour (z1 : ℚ) (z2 : ℚ) (z3 : ℚ)).isSome ↔
      (0 ≤ z1 ∧ z1 ≤ 255 ∧ 0 ≤ z2 ∧ z2 ≤ 255 ∧ 0 ≤ z3 ∧ z3 ≤ 255) := by
  by_cases h : 0 ≤ z1 ∧ z1 ≤ 255 ∧ 0 ≤ z2 ∧ z2 ≤ 255 ∧ 0 ≤ z3 ∧ z3 ≤ 255
  · obtain ⟨a1, a2, a3, a4, a5, a6⟩ := h
    rw [mkColour_int_eq z1 z2 z3 a1 a2 a3 a4 a5 a6]
    simp only [Option.isSome_some, true_iff]
    exact ⟨a1, a2, a3, a4, a5, a6⟩
  · rw [mkColour_int_none z1 z2 z3 h]
    simp only [Option.isSome_none, Bool.false_eq_true, false_iff]
    exact h

/-- C7 (counterexample): `from_hex` strips *all* leading `'#'` characters
(`lstrip`), not just one, and Python `int(_, 16)` accepts signed/padded
2-character slices, so the claim's failure condition is wrong on both counts:
`"##FF0000"` (7 characters after removing one `'#'`) and `"+1+2+3"` (not six
hexadecimal characters) both parse successfully. -/
theorem from_hex_not_single_hash :
    from_hex ('#' :: '#' :: 'F' :: 'F' :: '0' :: '0' :: '0' :: '0' :: []) = some colRed ∧
    ('#' :: 'F' :: 'F' :: '0' :: '0' :: '0' :: '0' :: []).length ≠ 6 ∧
    from_hex ('+' :: '1' :: '+' :: '2' :: '+' :: '3' :: []) =
      some ⟨1, 2, 3, by omega, by omega, by omega⟩ ∧
    ¬ ('+' :: '1' :: '+' :: '2' :: '+' :: '3' :: []).all (fun c => (hexVal c).isSome) := by
  refine ⟨?_, by decide, ?_, by decide⟩
  · have h : from_hex ('#' :: '#' :: 'F' :: 'F' :: '0' :: '0' :: '0' :: '0' :: []) =
        mkColour ((255 : ℤ) : ℚ) ((0 : ℤ) : ℚ) ((0 : ℤ) : ℚ) := rfl
    rw [h, mkColour_int_eq 255 0 0 (by norm_num) (by norm_num) (by norm_num) (by norm_num)
      (by norm_num) (by norm_num)]
    rfl
  · have h : from_hex ('+' :: '1' :: '+' :: '2' :: '+' :: '3' :: []) =
        mkColour ((1 : ℤ) : ℚ) ((2 : ℤ) : ℚ) ((3 : ℤ) : ℚ) := rfl
    rw [h, mkColour_int_eq 1 2 3 (by norm_num) (by norm_num) (by norm_num) (by norm_num)
      (by norm_num) (by norm_num)]
    rfl

/-- C7 (amended): `from_hex` strips every leading `'#'`; it succeeds if and
only if the remainder has exactly 6 characters and each of the three
2-character slices is accepted by Python `int(_, 16)` (two hex digits, or a
sign/space-padded single hex digit) with a value in [0, 255]; on success the
three channels are exactly the three parsed slice values. -/
theorem from_hex_characterization (s : List Char) :
    ((from_hex s).isSome ↔
      ((s.dropWhile (fun c => c = '#')).length = 6 ∧
       ∃ v1 v2 v3 : ℤ,
         int16of2 ((s.dropWhile (fun c => c = '#')).take 2) = some v1 ∧
         int16of2 (((s.dropWhile (fun c => c = '#')).drop 2).take 2) = some v2 ∧
         int16of2 (((s.dropWhile (fun c => c = '#')).drop 4).take 2) = some v3 ∧
         0 ≤ v1 ∧ v1 ≤ 255 ∧ 0 ≤ v2 ∧ v2 ≤ 255 ∧ 0 ≤ v3 ∧ v3 ≤ 255)) ∧
    (∀ c : Colour, from_hex s = some c →
      int16of2 ((s.dropWhile (fun c => c = '#')).take 2) = some (c.r : ℤ) ∧
      int16of2 (((s.dropWhile (fun c => c = '#')).drop 2).take 2) = some (c.g : ℤ) ∧
      int16of2 (((s.dropWhile (fun c => c = '#')).drop 4).take 2) = some (c.b : ℤ)) := by
  by_cases hlen : (s.dropWhile (fun c => c = '#')).length = 6
  · rcases h1 : int16of2 ((s.dropWhile (fun c => c = '#')).take 2) with _ | v1
    · have hfh : from_hex s = none := by
        rw [from_hex]
        simp only [if_pos hlen, h1]
      rw [hfh]
      constructor
      · simp only [Option.isSome_none, Bool.false_eq_true, false_iff]
        rintro ⟨-, v1, v2, v3, hp1, -⟩
        simp only [h1, reduceCtorEq] at hp1
      · intro c hc
        cases hc
    · rcases h2 : int16of2 (((s.dropWhile (fun c => c = '#')).drop 2).take 2) with _ | v2
      · have hfh : from_hex s = none := by
          rw [from_hex]
          simp only [if_pos hlen, h1, h2]
        rw [hfh]
        constructor
        · simp only [Option.isSome_none, Bool.false_eq_true, false_iff]
          rintro ⟨-, w1, w2, w3, -, hp2, -⟩
          simp only [h2, reduceCtorEq] at hp2
        · intro c hc
          cases hc
      · rcases h3 : int16of2 (((s.dropWhile (fun c => c = '#')).drop 4).take 2) with _ | v3
        · have hfh : from_hex s = none := by
            rw [from_hex]
            simp only [if_pos hlen, h1, h2, h3]
          rw [hfh]
          constructor
          · simp only [Option.isSome_none, Bool.false_eq_true, false_iff]
            rintro ⟨-, w1, w2, w3, -, -, hp3, -⟩
            simp only [h3, reduceCtorEq] at hp3
          · intro c hc
            cases hc
        · have hfh : from_hex s = mkColour (v1 : ℚ) (v2 : ℚ) (v3 : ℚ) := by
            rw [from_hex]
            simp only [if_pos hlen, h1, h2, h3]
          constructor
          · rw [hfh, mkColour_int_isSome]
            constructor
            · rintro ⟨a1, a2, a3, a4, a5, a6⟩
              exact ⟨hlen, v1, v2, v3, rfl, rfl, rfl, a1, a2, a3, a4, a5, a6⟩
            · rintro ⟨-, w1, w2, w3, hp1, hp2, hp3, a1, a2, a3, a4, a5, a6⟩
              simp only [h1, Option.some.injEq] at hp1
              simp only [h2, Option.some.injEq] at hp2
              simp only [h3, Option.some.injEq] at hp3
              subst hp1
              subst hp2
              subst hp3
              exact ⟨a1, a2, a3, a4, a5, a6⟩
          · intro c hc
            rw [hfh] at hc
            by_cases hr : 0 ≤ v1 ∧ v1 ≤ 255 ∧ 0 ≤ v2 ∧ v2 ≤ 255 ∧ 0 ≤ v3 ∧ v3 ≤ 255
            · obtain ⟨a1, a2, a3, a4, a5, a6⟩ := hr
              rw [mkColour_int_eq v1 v2 v3 a1 a2 a3 a4 a5 a6, Option.some.injEq] at hc
              subst hc
              refine ⟨?_, ?_, ?_⟩ <;>
                simp [Int.toNat_of_nonneg, a1, a3, a5, h1, h2, h3]
            · rw [mkColour_int_none v1 v2 v3 hr] at hc
              cases hc
  · have hfh : from_hex s = none := by
      rw [from_hex]
      simp only [if_neg hlen]
    rw [hfh]
    constructor
    · simp only [Option.isSome_none, Bool.false_eq_true, false_iff]
      rintro ⟨hc, -⟩
      exact hlen hc
    · intro c hc
      cases hc

/-- C7 (witness): the characterization applied to the concrete input
`"#FF0000"`, whose parse succeeds with channels 255, 0, 0. -/
theorem from_hex_characterization_witness :
    int16of2 ('F' :: 'F' :: []) = some ((colRed.r : ℕ) : ℤ) ∧
    int16of2 ('0' :: '0' :: []) = some ((colRed.g : ℕ) : ℤ) ∧
    int16of2 ('0' :: '0' :: []) = some ((colRed.b : ℕ) : ℤ) := by
  have hin : from_hex ('#' :: 'F' :: 'F' :: '0' :: '0' :: '0' :: '0' :: []) = some colRed := by
    have h : from_hex ('#' :: 'F' :: 'F' :: '0' :: '0' :: '0' :: '0' :: []) =
        mkColour ((255 : ℤ) : ℚ) ((0 : ℤ) : ℚ) ((0 : ℤ) : ℚ) := rfl
    rw [h, mkColour_int_eq 255 0 0 (by norm_num) (by norm_num) (by norm_num) (by norm_num)
      (by norm_num) (by norm_num)]
    rfl
  exact (from_hex_characterization ('#' :: 'F' :: 'F' :: '0' :: '0' :: '0' :: '0' :: [])).2
    colRed hin

/-- Each canonical uppercase hex digit has a value below 16, is recovered by
`upHexDigit`, and is not `'#'`. -/
theorem hexVal_upperHex : ∀ c ∈ upperHexChars,
    ∃ v, hexVal c = some v ∧ v < 16 ∧ upHexDigit v = c ∧ c ≠ '#' := by
  intro c hc
  fin_cases hc <;> exact ⟨_, rfl, by norm_num, rfl, by decide⟩

/-- Round trip for a single canonical hex string: `from_hex` succeeds and
`to_hex` reproduces the string exactly. -/
theorem canon_roundtrip (s : List Char) (h : isCanonHex s = true) :
    ∃ c : Colour, from_hex s = some c ∧ to_hex c = s := by
  unfold isCanonHex at h
  split at h
  case h_2 => cases h
  case h_1 rest =>
    rw [Bool.and_eq_true, decide_eq_true_eq, List.all_eq_true] at h
    obtain ⟨hlen, hall⟩ := h
    rcases rest with _ | ⟨d1, rest⟩
    · simp at hlen
    rcases rest with _ | ⟨d2, rest⟩
    · simp at hlen
    rcases rest with _ | ⟨d3, rest⟩
    · simp at hlen
    rcases rest with _ | ⟨d4, rest⟩
    · simp at hlen
    rcases rest with _ | ⟨d5, rest⟩
    · simp at hlen
    rcases rest with _ | ⟨d6, rest⟩
    · simp at hlen
    rcases rest with _ | ⟨d7, rest⟩
    case cons => simp at hlen
    obtain ⟨v1, hv1, hb1, hu1, hh1⟩ := hexVal_upperHex d1 (by
      have := hall d1 (by simp); simpa using this)
    obtain ⟨v2, hv2, hb2, hu2, hh2⟩ := hexVal_upperHex d2 (by
      have := hall d2 (by simp); simpa using this)
    obtain ⟨v3, hv3, hb3, hu3, hh3⟩ := hexVal_upperHex d3 (by
      have := hall d3 (by simp); simpa using this)
    obtain ⟨v4, hv4, hb4, hu4, hh4⟩ := hexVal_upperHex d4 (by
      have := hall d4 (by simp); simpa using this)
    obtain ⟨v5, hv5, hb5, hu5, hh5⟩ := hexVal_upperHex d5 (by
      have := hall d5 (by simp); simpa using this)
    obtain ⟨v6, hv6, hb6, hu6, hh6⟩ := hexVal_upperHex d6 (by
      have := hall d6 (by simp); simpa using this)
    have hdrop : ('#' :: d1 :: d2 :: d3 :: d4 :: d5 :: d6 :: []).dropWhile
        (fun c => c = '#') = d1 :: d2 :: d3 :: d4 :: d5 :: d6 :: [] := by
      simp [List.dropWhile_cons, hh1]
    refine ⟨⟨16 * v1 + v2, 16 * v3 + v4, 16 * v5 + v6, by omega, by omega, by omega⟩, ?_, ?_⟩
    · rw [from_hex]
      simp only [hdrop]
      rw [if_pos (show ([d1, d2, d3, d4, d5, d6] : List Char).length = 6 from rfl)]
      have hs1 : int16of2 (List.take 2 [d1, d2, d3, d4, d5, d6]) =
          some ((16 * v1 + v2 : ℕ) : ℤ) := by
        show int16of2 [d1, d2] = _
        simp only [int16of2, hv1, hv2]
      have hs2 : int16of2 (List.take 2 (List.drop 2 [d1, d2, d3, d4, d5, d6])) =
          some ((16 * v3 + v4 : ℕ) : ℤ) := by
        show int16of2 [d3, d4] = _
        simp only [int16of2, hv3, hv4]
      have hs3 : int16of2 (List.take 2 (List.drop 4 [d1, d2, d3, d4, d5, d6])) =
          some ((16 * v5 + v6 : ℕ) : ℤ) := by
        show int16of2 [d5, d6] = _
        simp only [int16of2, hv5, hv6]
      rw [hs1, hs2, hs3]
      show mkColour (((16 * v1 + v2 : ℕ) : ℤ) : ℚ) (((16 * v3 + v4 : ℕ) : ℤ) : ℚ)
        (((16 * v5 + v6 : ℕ) : ℤ) : ℚ) = _
      rw [mkColour_int_eq ((16 * v1 + v2 : ℕ) : ℤ) ((16 * v3 + v4 : ℕ) : ℤ)
        ((16 * v5 + v6 : ℕ) : ℤ) (Int.natCast_nonneg _)
        (by exact_mod_cast (by omega : 16 * v1 + v2 ≤ 255))
        (Int.natCast_nonneg _) (by exact_mod_cast (by omega : 16 * v3 + v4 ≤ 255))
        (Int.natCast_nonneg _) (by exact_mod_cast (by omega : 16 * v5 + v6 ≤ 255))]
      simp only [Int.toNat_natCast]
    · rw [to_hex]
      have e1 : (16 * v1 + v2) / 16 = v1 := by omega
      have e2 : (16 * v1 + v2) % 16 = v2 := by omega
      have e3 : (16 * v3 + v4) / 16 = v3 := by omega
      have e4 : (16 * v3 + v4) % 16 = v4 := by omega
      have e5 : (16 * v5 + v6) / 16 = v5 := by omega
      have e6 : (16 * v5 + v6) % 16 = v6 := by omega
      simp only [e1, e2, e3, e4, e5, e6, hu1, hu2, hu3, hu4, hu5, hu6]

/-- C6 (counterexample): a well-formed hex string that is lowercase (or lacks
the leading `'#'`) is not reproduced by the round trip: output is always
uppercase with a leading `'#'`. -/
theorem hex_roundtrip_lowercase :
    Option.map to_hex_list
        (from_hex_list (('f' :: 'f' :: '8' :: '0' :: '0' :: '0' :: []) :: [])) =
      some (('#' :: 'F' :: 'F' :: '8' :: '0' :: '0' :: '0' :: []) :: []) ∧
    ('#' :: 'F' :: 'F' :: '8' :: '0' :: '0' :: '0' :: []) ≠
      ('f' :: 'f' :: '8' :: '0' :: '0' :: '0' :: []) := by
  constructor
  · have h : from_hex ('f' :: 'f' :: '8' :: '0' :: '0' :: '0' :: []) =
        mkColour ((255 : ℤ) : ℚ) ((128 : ℤ) : ℚ) ((0 : ℤ) : ℚ) := rfl
    have h2 : from_hex ('f' :: 'f' :: '8' :: '0' :: '0' :: '0' :: []) =
        some ⟨255, 128, 0, by omega, by omega, by omega⟩ := by
      rw [h, mkColour_int_eq 255 128 0 (by norm_num) (by norm_num) (by norm_num) (by norm_num)
        (by norm_num) (by norm_num)]
      rfl
    simp [from_hex_list, parseHexList, h2, mkPalette, Except.toOption, to_hex_list, to_hex,
      upHexDigit]
  · decide

/-- C6 (amended): the hex round trip through a palette reproduces the input
list exactly for every non-empty list of canonical hex strings — a `'#'`
followed by six uppercase hexadecimal digits, the exact output format; inputs
that are lowercase or lack the `'#'` parse to the same colours but are
re-emitted canonically. -/
theorem hex_roundtrip_canonical (L : List (List Char)) (hne : L ≠ [])
    (hcanon : ∀ s ∈ L, isCanonHex s = true) :
    Option.map to_hex_list (from_hex_list L) = some L := by
  have key : ∀ M : List (List Char), (∀ s ∈ M, isCanonHex s = true) →
      ∃ cs : List Colour, parseHexList M = some cs ∧ cs.map to_hex = M ∧
        cs.length = M.length := by
    intro M
    induction M with
    | nil => exact fun _ => ⟨[], rfl, rfl, rfl⟩
    | cons s rest ih =>
      intro hc
      obtain ⟨c, hfc, htc⟩ := canon_roundtrip s (hc s (by simp))
      obtain ⟨cs, hcs, hmap, hlen⟩ := ih (fun t ht => hc t (by simp [ht]))
      refine ⟨c :: cs, ?_, ?_, ?_⟩
      · simp [parseHexList, hfc, hcs]
      · simp [hmap, htc]
      · simp [hlen]
  obtain ⟨cs, hcs, hmap, hlen⟩ := key L hcanon
  have hcsne : cs ≠ [] := by
    intro hc
    subst hc
    simp at hlen
    exact hne (List.length_eq_zero.mp hlen.symm)
  rw [from_hex_list, hcs]
  simp [mkPalette, hcsne, Except.toOption, to_hex_list, hmap]

/-- C6 (witness): the amended round trip applied to the concrete singleton
list `["#FF8000"]`. -/
theorem hex_roundtrip_canonical_witness :
    ((('#' :: 'F' :: 'F' :: '8' :: '0' :: '0' :: '0' :: []) :: []) : List (List Char)) ≠ [] ∧
    Option.map to_hex_list
        (from_hex_list (('#' :: 'F' :: 'F' :: '8' :: '0' :: '0' :: '0' :: []) :: [])) =
      some (('#' :: 'F' :: 'F' :: '8' :: '0' :: '0' :: '0' :: []) :: []) :=
  ⟨by decide, hex_roundtrip_canonical _ (by decide) (by decide)⟩

/-! ## C1: the rgb-literal round trip (spec-modelled `from_string`/`to_string`) -/

/-- Decimal digit characters parse back to their value and are neither
whitespace, comma, minus, nor a parenthesis. -/
theorem decDigit_good (n : ℕ) (h : n < 10) :
    decVal (decDigit n) = some n ∧ pySpace (decDigit n) = false ∧
    decDigit n ≠ ',' ∧ decDigit n ≠ '-' := by
  interval_cases n <;> exact ⟨rfl, rfl, by decide, by decide⟩

/-- `natDigits` always produces at least one character. -/
theorem natDigits_ne_nil (n : ℕ) : natDigits n ≠ [] := by
  rw [natDigits]
  split_ifs <;> simp

/-- Every character of `natDigits` is a decimal digit (hence not whitespace,
comma, or minus). -/
theorem natDigits_mem (n : ℕ) :
    ∀ c ∈ natDigits n, pySpace c = false ∧ c ≠ ',' ∧ c ≠ '-' := by
  induction n using Nat.strong_induction_on with
  | _ n ih =>
    intro c hc
    rw [natDigits] at hc
    split_ifs at hc with h
    · simp only [List.mem_singleton] at hc
      subst hc
      exact ⟨(decDigit_good n h).2.1, (decDigit_good n h).2.2.1, (decDigit_good n h).2.2.2⟩
    · rw [List.mem_append, List.mem_singleton] at hc
      rcases hc with hc | hc
      · exact ih (n / 10) (Nat.div_lt_self (by omega) (by omega)) c hc
      · subst hc
        have h10 : n % 10 < 10 := by omega
        exact ⟨(decDigit_good _ h10).2.1, (decDigit_good _ h10).2.2.1,
          (decDigit_good _ h10).2.2.2⟩

/-- Folding the decimal accumulator over the digits of `n` starting from `a`
yields `a * 10^k + n`. -/
theorem fold_decDigits (n : ℕ) : ∀ a : ℕ,
    List.foldl decStep (some a) (natDigits n) =
      some (a * 10 ^ (natDigits n).length + n) := by
  induction n using Nat.strong_induction_on with
  | _ n ih =>
    intro a
    rw [natDigits]
    split_ifs with h
    · simp only [List.foldl_cons, List.foldl_nil, decStep, (decDigit_good n h).1,
        List.length_singleton, pow_one]
      congr 1
      ring
    · have hlt : n / 10 < n := Nat.div_lt_self (by omega) (by omega)
      rw [List.foldl_append, ih (n / 10) hlt a]
      have hv := (decDigit_good (n % 10) (by omega)).1
      simp only [List.foldl_cons, List.foldl_nil, decStep, hv, List.length_append,
        List.length_singleton]
      congr 1
      have hn : n = 10 * (n / 10) + n % 10 := by omega
      rw [pow_succ]
      nlinarith [hn]

/-- Value round trip: parsing the decimal digits of `n` gives back `n`. -/
theorem decDigitsVal_natDigits (n : ℕ) : decDigitsVal (natDigits n) = some n := by
  obtain ⟨d, ds, hds⟩ : ∃ d ds, natDigits n = d :: ds := by
    cases hnd : natDigits n with
    | nil => exact absurd hnd (natDigits_ne_nil n)
    | cons d ds => exact ⟨d, ds, rfl⟩
  rw [hds]
  have := fold_decDigits n 0
  rw [hds] at this
  simpa [decDigitsVal] using this

/-- `dropWhile` leaves a list whose head is not accepted unchanged. -/
theorem dropWhile_head_false (p : Char → Bool) (x : Char) (xs : List Char)
    (hx : p x = false) : (x :: xs).dropWhile p = x :: xs := by
  simp [List.dropWhile_cons, hx]

/-- `trimChars` is the identity on strings with non-space first and last
characters. -/
theorem trimChars_eq_self (s : List Char) (h1 : s.dropWhile pySpace = s)
    (h2 : s.reverse.dropWhile pySpace = s.reverse) : trimChars s = s := by
  rw [trimChars, h1, h2, List.reverse_reverse]

/-- `trimChars` is the identity on all-digit strings. -/
theorem trimChars_natDigits (n : ℕ) : trimChars (natDigits n) = natDigits n := by
  obtain ⟨d, ds, hds⟩ : ∃ d ds, natDigits n = d :: ds := by
    cases hnd : natDigits n with
    | nil => exact absurd hnd (natDigits_ne_nil n)
    | cons d ds => exact ⟨d, ds, rfl⟩
  refine trimChars_eq_self _ ?_ ?_
  · rw [hds]
    exact dropWhile_head_false _ _ _ ((natDigits_mem n d (by rw [hds]; simp)).1)
  · cases hrev : (natDigits n).reverse with
    | nil => rfl
    | cons x xs =>
      have hx : x ∈ natDigits n := by
        rw [← List.mem_reverse, hrev]
        simp
      exact dropWhile_head_false _ _ _ ((natDigits_mem n x hx).1)

/-- `trimChars` strips exactly the leading space of `' ' :: digits`. -/
theorem trimChars_space_natDigits (n : ℕ) :
    trimChars (' ' :: natDigits n) = natDigits n := by
  have h1 : (' ' :: natDigits n).dropWhile pySpace = (natDigits n).dropWhile pySpace := by
    have hsp : pySpace ' ' = true := rfl
    simp [List.dropWhile_cons, hsp]
  rw [trimChars, h1]
  have h2 := trimChars_natDigits n
  rw [trimChars] at h2
  exact h2

/-- `splitOnChar` of a separator-free string is that single chunk. -/
theorem splitOnChar_no_sep (sep : Char) (s : List Char) (h : ∀ c ∈ s, c ≠ sep) :
    splitOnChar sep s = [s] := by
  induction s with
  | nil => rfl
  | cons c cs ih =>
    rw [splitOnChar, if_neg (h c (by simp)), ih (fun d hd => h d (by simp [hd]))]

/-- `splitOnChar` splits at the first separator after a separator-free
prefix. -/
theorem splitOnChar_append (sep : Char) (xs ys : List Char) (h : ∀ c ∈ xs, c ≠ sep) :
    splitOnChar sep (xs ++ sep :: ys) = xs :: splitOnChar sep ys := by
  induction xs with
  | nil =>
    simp [splitOnChar]
  | cons c cs ih =>
    rw [List.cons_append, splitOnChar, if_neg (h c (by simp)),
      ih (fun d hd => h d (by simp [hd]))]

/-- Parsing a component consisting of the digits of `n` (with an optional
leading space) yields `n`. -/
theorem parseComp_natDigits (n : ℕ) :
    parseComp (natDigits n) = some (n : ℤ) ∧
    parseComp (' ' :: natDigits n) = some (n : ℤ) := by
  obtain ⟨d, ds, hds⟩ : ∃ d ds, natDigits n = d :: ds := by
    cases hnd : natDigits n with
    | nil => exact absurd hnd (natDigits_ne_nil n)
    | cons d ds => exact ⟨d, ds, rfl⟩
  have hdm : d ≠ '-' := (natDigits_mem n d (by rw [hds]; simp)).2.2
  have hval : decDigitsVal (d :: ds) = some n := by
    rw [← hds]
    exact decDigitsVal_natDigits n
  constructor
  · rw [parseComp, trimChars_natDigits, hds]
    simp [if_neg hdm, hval]
  · rw [parseComp, trimChars_space_natDigits, hds]
    simp [if_neg hdm, hval]

/-- C1: serializing any Colour to its rgb-literal string and parsing it back
yields the same colour: `from_rgb_string (to_rgb_string c) = some c`
(both operations modelled from the spec, `Colour.from_string`/`to_string`
being absent from colour.py). -/
theorem rgb_string_roundtrip (c : Colour) :
    from_rgb_string (to_rgb_string c) = some c := by
  have hshape : to_rgb_string c =
      ('r' :: 'g' :: 'b' :: '(' ::
        (natDigits c.r ++ ',' :: ' ' :: (natDigits c.g ++ ',' :: ' ' :: natDigits c.b))) ++
        [')'] := by
    simp [to_rgb_string, List.cons_append, List.append_assoc]
  have htrim : trimChars (to_rgb_string c) = to_rgb_string c := by
    refine trimChars_eq_self _ ?_ ?_
    · rw [to_rgb_string]
      exact dropWhile_head_false _ _ _ rfl
    · rw [hshape]
      have hrev : (('r' :: 'g' :: 'b' :: '(' ::
          (natDigits c.r ++ ',' :: ' ' :: (natDigits c.g ++ ',' :: ' ' :: natDigits c.b))) ++
          [')']).reverse = ')' :: ('r' :: 'g' :: 'b' :: '(' ::
          (natDigits c.r ++ ',' :: ' ' :: (natDigits c.g ++ ',' :: ' ' ::
            natDigits c.b))).reverse := by
        simp
      rw [hrev]
      exact dropWhile_head_false _ _ _ rfl
  have hcond : (to_rgb_string c).take 4 = ['r', 'g', 'b', '('] ∧
      (to_rgb_string c).getLast? = some ')' := by
    constructor
    · rw [to_rgb_string]
      rfl
    · rw [hshape]
      exact List.getLast?_concat _
  have hinner : ((to_rgb_string c).drop 4).dropLast =
      natDigits c.r ++ ',' :: ' ' :: (natDigits c.g ++ ',' :: ' ' :: natDigits c.b) := by
    rw [hshape]
    have hdrop : (('r' :: 'g' :: 'b' :: '(' ::
        (natDigits c.r ++ ',' :: ' ' :: (natDigits c.g ++ ',' :: ' ' :: natDigits c.b))) ++
        [')']).drop 4 =
        (natDigits c.r ++ ',' :: ' ' :: (natDigits c.g ++ ',' :: ' ' :: natDigits c.b)) ++
          [')'] := by
      simp [List.cons_append]
    rw [hdrop, List.dropLast_concat]
  have hsplit : splitOnChar ','
      (natDigits c.r ++ ',' :: ' ' :: (natDigits c.g ++ ',' :: ' ' :: natDigits c.b)) =
      [natDigits c.r, ' ' :: natDigits c.g, ' ' :: natDigits c.b] := by
    rw [splitOnChar_append ',' (natDigits c.r) _
      (fun d hd => (natDigits_mem c.r d hd).2.1)]
    have h2 : splitOnChar ',' (' ' :: (natDigits c.g ++ ',' :: ' ' :: natDigits c.b)) =
        (' ' :: natDigits c.g) :: splitOnChar ',' (' ' :: natDigits c.b) :=
      splitOnChar_append ',' (' ' :: natDigits c.g) (' ' :: natDigits c.b)
        (fun d hd => by
          rcases List.mem_cons.mp hd with h | h
          · subst h; decide
          · exact (natDigits_mem c.g d h).2.1)
    rw [h2, splitOnChar_no_sep ',' (' ' :: natDigits c.b)
      (fun d hd => by
        rcases List.mem_cons.mp hd with h | h
        · subst h; decide
        · exact (natDigits_mem c.b d h).2.1)]
  have hp1 := (parseComp_natDigits c.r).1
  have hp2 := (parseComp_natDigits c.g).2
  have hp3 := (parseComp_natDigits c.b).2
  have hrange : (0 : ℤ) ≤ (c.r : ℤ) ∧ (c.r : ℤ) ≤ 255 ∧ (0 : ℤ) ≤ (c.g : ℤ) ∧
      (c.g : ℤ) ≤ 255 ∧ (0 : ℤ) ≤ (c.b : ℤ) ∧ (c.b : ℤ) ≤ 255 := by
    refine ⟨Int.natCast_nonneg _, ?_, Int.natCast_nonneg _, ?_, Int.natCast_nonneg _, ?_⟩
    · exact_mod_cast c.r_le
    · exact_mod_cast c.g_le
    · exact_mod_cast c.b_le
  rw [from_rgb_string]
  simp only [htrim, if_pos hcond, hinner, hsplit, hp1, hp2, hp3, dif_pos hrange,
    Int.toNat_natCast]

/-! ## C4 / C10: HLS round trip, monotonicity and channel bounds -/

/-- Projection helpers for triple literals. -/
theorem prod3_snd1 (a b c : ℚ) : (a, b, c).2.1 = b := rfl

theorem prod3_snd2 (a b c : ℚ) : (a, b, c).2.2 = c := rfl

/-- `fract x = x` on [0, 1). -/
theorem fract_of_mem (x : ℚ) (h0 : 0 ≤ x) (h1 : x < 1) : Int.fract x = x :=
  Int.fract_eq_self.mpr ⟨h0, h1⟩

/-- `_v` evaluates to `m2` on the band [1/6, 1/2). -/
theorem hlsV_eval_m2 (a b x : ℚ) (h1 : 1/6 ≤ Int.fract x) (h2 : Int.fract x < 1/2) :
    hlsV a b x = b := by
  simp only [hlsV]
  rw [if_neg (by linarith), if_pos h2]

/-- `_v` evaluates to `m1` on the band [2/3, 1). -/
theorem hlsV_eval_m1 (a b x : ℚ) (h1 : 2/3 ≤ Int.fract x) : hlsV a b x = a := by
  simp only [hlsV]
  rw [if_neg (by linarith), if_neg (by linarith), if_neg (by linarith)]

/-- `_v` interpolates upward on [0, 1/6). -/
theorem hlsV_eval_up (a b x : ℚ) (h2 : Int.fract x < 1/6) :
    hlsV a b x = a + (b - a) * Int.fract x * 6 := by
  simp only [hlsV]
  rw [if_pos h2]

/-- `_v` interpolates downward on [1/2, 2/3). -/
theorem hlsV_eval_down (a b x : ℚ) (h1 : 1/2 ≤ Int.fract x) (h2 : Int.fract x < 2/3) :
    hlsV a b x = a + (b - a) * (2/3 - Int.fract x) * 6 := by
  simp only [hlsV]
  rw [if_neg (by linarith), if_neg (by linarith), if_pos h2]

/-- The `m2` computed by `hls_to_rgb` from the `l` and `s` that `rgb_to_hls`
derives from extrema `m < M` recovers `M` exactly. -/
theorem m2_eval (m M : ℚ) (h0 : 0 ≤ m) (h1 : M ≤ 1) (hmM : m < M) :
    (if (m + M)/2 ≤ 1/2
      then ((m + M)/2) * (1 + (if (m + M)/2 ≤ 1/2 then (M - m)/(M + m)
        else (M - m)/(2 - M - m)))
      else (m + M)/2 + (if (m + M)/2 ≤ 1/2 then (M - m)/(M + m)
        else (M - m)/(2 - M - m)) -
        ((m + M)/2) * (if (m + M)/2 ≤ 1/2 then (M - m)/(M + m)
        else (M - m)/(2 - M - m))) = M := by
  split_ifs with h
  · have hsum : 0 < M + m := by nlinarith
    field_simp
    ring
  · have h2 : 0 < 2 - M - m := by nlinarith
    field_simp
    ring

/-- `hls_to_rgb` applied to the `(l, s)` pair that `rgb_to_hls` derives from
extrema `m < M` is `_v`-interpolation between `m` and `M`. -/
theorem hls_to_rgb_eval (m M x : ℚ) (h0 : 0 ≤ m) (h1 : M ≤ 1) (hmM : m < M) :
    hls_to_rgb x ((m + M)/2)
      (if (m + M)/2 ≤ 1/2 then (M - m)/(M + m) else (M - m)/(2 - M - m)) =
      (hlsV m M (x + 1/3), hlsV m M x, hlsV m M (x - 1/3)) := by
  have hSpos : 0 < (if (m + M)/2 ≤ 1/2 then (M - m)/(M + m) else (M - m)/(2 - M - m)) := by
    split_ifs with h
    · exact div_pos (by linarith) (by nlinarith)
    · exact div_pos (by linarith) (by nlinarith)
  simp only [hls_to_rgb]
  rw [if_neg hSpos.ne', m2_eval m M h0 h1 hmM]
  have hm1 : 2 * ((m + M)/2) - M = m := by ring
  rw [hm1]

/-- `m2` is monotone in lightness for saturation in [0, 1]. -/
theorem hlsM2_mono (s l1 l2 : ℚ) (hs0 : 0 ≤ s) (hs1 : s ≤ 1) (hl : l1 ≤ l2) :
    (if l1 ≤ 1/2 then l1 * (1 + s) else l1 + s - l1 * s) ≤
      (if l2 ≤ 1/2 then l2 * (1 + s) else l2 + s - l2 * s) := by
  split_ifs with h1 h2 h3 <;> nlinarith

/-- `m1 = 2l - m2` is monotone in lightness for saturation in [0, 1]. -/
theorem hlsM1_mono (s l1 l2 : ℚ) (hs0 : 0 ≤ s) (hs1 : s ≤ 1) (hl : l1 ≤ l2) :
    2 * l1 - (if l1 ≤ 1/2 then l1 * (1 + s) else l1 + s - l1 * s) ≤
      2 * l2 - (if l2 ≤ 1/2 then l2 * (1 + s) else l2 + s - l2 * s) := by
  split_ifs with h1 h2 h3 <;> nlinarith

/-- `_v` is monotone in both interpolation endpoints. -/
theorem hlsV_mono (a1 b1 a2 b2 x : ℚ) (ha : a1 ≤ a2) (hb : b1 ≤ b2) :
    hlsV a1 b1 x ≤ hlsV a2 b2 x := by
  simp only [hlsV]
  have hf0 : 0 ≤ Int.fract x := Int.fract_nonneg x
  have hf1 : Int.fract x < 1 := Int.fract_lt_one x
  split_ifs with h1 h2 h3 <;> nlinarith

/-- `_v` stays between its endpoints. -/
theorem hlsV_bounds (a b x : ℚ) (hab : a ≤ b) (h0 : 0 ≤ a) (h1 : b ≤ 1) :
    0 ≤ hlsV a b x ∧ hlsV a b x ≤ 1 := by
  simp only [hlsV]
  have hf0 : 0 ≤ Int.fract x := Int.fract_nonneg x
  have hf1 : Int.fract x < 1 := Int.fract_lt_one x
  split_ifs with h1' h2' h3' <;> constructor <;> nlinarith

/-- The interpolation endpoints lie in [0, 1] with `m1 ≤ m2` when `l, s` do. -/
theorem hlsM_bounds (s l : ℚ) (hs0 : 0 ≤ s) (hs1 : s ≤ 1) (hl0 : 0 ≤ l) (hl1 : l ≤ 1) :
    2 * l - (if l ≤ 1/2 then l * (1 + s) else l + s - l * s) ≤
      (if l ≤ 1/2 then l * (1 + s) else l + s - l * s) ∧
    0 ≤ 2 * l - (if l ≤ 1/2 then l * (1 + s) else l + s - l * s) ∧
    (if l ≤ 1/2 then l * (1 + s) else l + s - l * s) ≤ 1 := by
  split_ifs with h <;> refine ⟨?_, ?_, ?_⟩ <;> nlinarith

/-- All three channels of `hls_to_rgb` are monotone in lightness. -/
theorem hls_to_rgb_mono (x s l1 l2 : ℚ) (hs0 : 0 ≤ s) (hs1 : s ≤ 1) (hl : l1 ≤ l2) :
    (hls_to_rgb x l1 s).1 ≤ (hls_to_rgb x l2 s).1 ∧
    (hls_to_rgb x l1 s).2.1 ≤ (hls_to_rgb x l2 s).2.1 ∧
    (hls_to_rgb x l1 s).2.2 ≤ (hls_to_rgb x l2 s).2.2 := by
  by_cases h : s = 0
  · simp only [hls_to_rgb, if_pos h, prod3_fst, prod3_snd1, prod3_snd2]
    exact ⟨hl, hl, hl⟩
  · simp only [hls_to_rgb, if_neg h, prod3_fst, prod3_snd1, prod3_snd2]
    exact ⟨hlsV_mono _ _ _ _ _ (hlsM1_mono s l1 l2 hs0 hs1 hl) (hlsM2_mono s l1 l2 hs0 hs1 hl),
      hlsV_mono _ _ _ _ _ (hlsM1_mono s l1 l2 hs0 hs1 hl) (hlsM2_mono s l1 l2 hs0 hs1 hl),
      hlsV_mono _ _ _ _ _ (hlsM1_mono s l1 l2 hs0 hs1 hl) (hlsM2_mono s l1 l2 hs0 hs1 hl)⟩

/-- All three channels of `hls_to_rgb` lie in [0, 1] when `l, s` do. -/
theorem hls_to_rgb_bounds (x l s : ℚ) (hs0 : 0 ≤ s) (hs1 : s ≤ 1) (hl0 : 0 ≤ l) (hl1 : l ≤ 1) :
    (0 ≤ (hls_to_rgb x l s).1 ∧ (hls_to_rgb x l s).1 ≤ 1) ∧
    (0 ≤ (hls_to_rgb x l s).2.1 ∧ (hls_to_rgb x l s).2.1 ≤ 1) ∧
    (0 ≤ (hls_to_rgb x l s).2.2 ∧ (hls_to_rgb x l s).2.2 ≤ 1) := by
  by_cases h : s = 0
  · simp only [hls_to_rgb, if_pos h, prod3_fst, prod3_snd1, prod3_snd2]
    exact ⟨⟨hl0, hl1⟩, ⟨hl0, hl1⟩, ⟨hl0, hl1⟩⟩
  · obtain ⟨hm12, hm10, hm21⟩ := hlsM_bounds s l hs0 hs1 hl0 hl1
    simp only [hls_to_rgb, if_neg h, prod3_fst, prod3_snd1, prod3_snd2]
    exact ⟨hlsV_bounds _ _ _ hm12 hm10 hm21, hlsV_bounds _ _ _ hm12 hm10 hm21,
      hlsV_bounds _ _ _ hm12 hm10 hm21⟩

/-- The lightness and saturation produced by `rgb_to_hls` on channels in
[0, 1] lie in [0, 1]. -/
theorem rgb_to_hls_sl_mem (r g b : ℚ) (hr0 : 0 ≤ r) (hr1 : r ≤ 1) (hg0 : 0 ≤ g)
    (hg1 : g ≤ 1) (hb0 : 0 ≤ b) (hb1 : b ≤ 1) :
    (0 ≤ (rgb_to_hls r g b).2.1 ∧ (rgb_to_hls r g b).2.1 ≤ 1) ∧
    (0 ≤ (rgb_to_hls r g b).2.2 ∧ (rgb_to_hls r g b).2.2 ≤ 1) := by
  have hmM : min r (min g b) ≤ max r (max g b) :=
    le_trans (min_le_left _ _) (le_max_left _ _)
  have hm0 : 0 ≤ min r (min g b) := le_min hr0 (le_min hg0 hb0)
  have hM1 : max r (max g b) ≤ 1 := max_le hr1 (max_le hg1 hb1)
  simp only [rgb_to_hls]
  by_cases heq : min r (min g b) = max r (max g b)
  · rw [if_pos heq]
    simp only [prod3_fst, prod3_snd1, prod3_snd2]
    exact ⟨⟨by linarith, by linarith⟩, ⟨le_refl 0, by norm_num⟩⟩
  · rw [if_neg heq]
    have hlt : min r (min g b) < max r (max g b) := lt_of_le_of_ne hmM heq
    have hMpos : 0 < max r (max g b) := lt_of_le_of_lt hm0 hlt
    simp only [prod3_fst, prod3_snd1, prod3_snd2]
    refine ⟨⟨by linarith, by linarith⟩, ?_⟩
    split_ifs with h
    · have hsum : 0 < max r (max g b) + min r (min g b) := by linarith
      constructor
      · exact div_nonneg (by linarith) (by linarith)
      · rw [div_le_one hsum]
        linarith
    · have h2 : 0 < 2 - max r (max g b) - min r (min g b) := by linarith
      constructor
      · exact div_nonneg (by linarith) (by linarith)
      · rw [div_le_one h2]
        linarith


/-- With zero saturation `hls_to_rgb` is constant at the lightness. -/
theorem hls_to_rgb_zero_s (x l : ℚ) : hls_to_rgb x l 0 = (l, l, l) := by
  simp [hls_to_rgb]

/-- Exact round trip in rational arithmetic: feeding the HLS triple computed
by `rgb_to_hls` back through `hls_to_rgb` reproduces the channels exactly. -/
theorem hls_rt (r g b : ℚ) (hr0 : 0 ≤ r) (hr1 : r ≤ 1) (hg0 : 0 ≤ g) (hg1 : g ≤ 1)
    (hb0 : 0 ≤ b) (hb1 : b ≤ 1) :
    hls_to_rgb (rgb_to_hls r g b).1 (rgb_to_hls r g b).2.1 (rgb_to_hls r g b).2.2 =
      (r, g, b) := by
  simp only [rgb_to_hls]
  by_cases heq : min r (min g b) = max r (max g b)
  · have h1 : min r (min g b) ≤ r := min_le_left _ _
    have h2 : r ≤ max r (max g b) := le_max_left _ _
    have h3 : min r (min g b) ≤ g := le_trans (min_le_right _ _) (min_le_left _ _)
    have h4 : g ≤ max r (max g b) := le_trans (le_max_left _ _) (le_max_right _ _)
    have h5 : min r (min g b) ≤ b := le_trans (min_le_right _ _) (min_le_right _ _)
    have h6 : b ≤ max r (max g b) := le_trans (le_max_right _ _) (le_max_right _ _)
    have hgr : g = r := by linarith
    have hbr : b = r := by linarith
    subst hgr
    subst hbr
    rw [if_pos heq]
    simp only [prod3_fst, prod3_snd1, prod3_snd2, min_self, max_self]
    rw [hls_to_rgb_zero_s, add_self_div_two]
  · have hmM : min r (min g b) ≤ max r (max g b) :=
      le_trans (min_le_left _ _) (le_max_left _ _)
    have hlt : min r (min g b) < max r (max g b) := lt_of_le_of_ne hmM heq
    rw [if_neg heq]
    simp only [prod3_fst, prod3_snd1, prod3_snd2]
    by_cases hR : r = max r (max g b)
    · have hgr : g ≤ r := by
        calc g ≤ max r (max g b) := le_trans (le_max_left _ _) (le_max_right _ _)
          _ = r := hR.symm
      have hbr : b ≤ r := by
        calc b ≤ max r (max g b) := le_trans (le_max_right _ _) (le_max_right _ _)
          _ = r := hR.symm
      have hmax : max r (max g b) = r := hR.symm
      rcases le_total b g with hbg | hgb
      · -- case A: b ≤ g ≤ r, minimum is b
        have hmin : min r (min g b) = b := by
          rw [min_eq_right hbg, min_eq_right hbr]
        have hblt : b < r := by
          have h' := hlt
          rw [hmin, hmax] at h'
          exact h'
        rw [hmin, hmax, if_pos rfl]
        rw [hls_to_rgb_eval b r _ hb0 hr1 hblt]
        have hrbne : r - b ≠ 0 := sub_ne_zero.mpr (ne_of_gt hblt)
        set t := (g - b) / (r - b) with ht
        have hh0 : (r - b) / (r - b) - (r - g) / (r - b) = t := by
          rw [div_sub_div_same, ht]
          congr 1
          ring
        rw [hh0]
        have ht0 : 0 ≤ t := div_nonneg (by linarith) (by linarith)
        have ht1 : t ≤ 1 := by
          rw [ht, div_le_one (by linarith)]
          linarith
        have hfr : Int.fract (t / 6) = t / 6 :=
          fract_of_mem _ (by linarith) (by linarith)
        rw [hfr]
        have hfr2 : Int.fract (t / 6 + 1 / 3) = t / 6 + 1 / 3 :=
          fract_of_mem _ (by linarith) (by linarith)
        have hfr3 : Int.fract (t / 6 - 1 / 3) = t / 6 + 2 / 3 := by
          rw [show t / 6 - 1 / 3 = (t / 6 + 2 / 3) - 1 by ring, Int.fract_sub_one]
          exact fract_of_mem _ (by linarith) (by linarith)
        have hkey : (r - b) * (t / 6) * 6 = g - b := by
          rw [ht]
          field_simp
          ring
        simp only [Prod.mk.injEq]
        refine ⟨?_, ?_, ?_⟩
        · rcases eq_or_lt_of_le ht1 with hteq | htlt
          · rw [hlsV_eval_down b r _ (by rw [hfr2, hteq]; norm_num)
              (by rw [hfr2]; linarith), hfr2, hteq]
            ring
          · rw [hlsV_eval_m2 b r _ (by rw [hfr2]; linarith) (by rw [hfr2]; linarith)]
        · rcases eq_or_lt_of_le ht1 with hteq | htlt
          · have hgr' : g = r := by
              have h' : t = 1 := hteq
              rw [ht, div_eq_one_iff_eq hrbne] at h'
              linarith
            rw [hlsV_eval_m2 b r _ (by rw [hfr, hteq]) (by rw [hfr]; linarith)]
            exact hgr'.symm
          · rw [hlsV_eval_up b r _ (by rw [hfr]; linarith), hfr]
            linarith [hkey]
        · rw [hlsV_eval_m1 b r _ (by rw [hfr3]; linarith)]
      · -- case B: g ≤ b ≤ r, minimum is g
        have hmin : min r (min g b) = g := by
          rw [min_eq_left hgb, min_eq_right hgr]
        have hglt : g < r := by
          have h' := hlt
          rw [hmin, hmax] at h'
          exact h'
        rw [hmin, hmax, if_pos rfl]
        rw [hls_to_rgb_eval g r _ hg0 hr1 hglt]
        have hrgne : r - g ≠ 0 := sub_ne_zero.mpr (ne_of_gt hglt)
        set u := (b - g) / (r - g) with hu
        have hh0 : (r - b) / (r - g) - (r - g) / (r - g) = -u := by
          rw [div_sub_div_same, show r - b - (r - g) = -(b - g) by ring, neg_div, ← hu]
        rw [hh0]
        have hu0 : 0 ≤ u := div_nonneg (by linarith) (by linarith)
        have hu1 : u ≤ 1 := by
          rw [hu, div_le_one (by linarith)]
          linarith
        have hkey : (r - g) * u = b - g := by
          rw [hu]
          field_simp
        simp only [Prod.mk.injEq]
        rcases eq_or_lt_of_le hu0 with hueq | hult
        · -- u = 0, so b = g
          have hbg' : b = g := by
            have h' : (b - g) / (r - g) = 0 := by rw [← hu, ← hueq]
            rw [div_eq_zero_iff] at h'
            rcases h' with h' | h'
            · linarith
            · exact absurd h' hrgne
          have hfr : Int.fract (-u / 6) = 0 := by
            rw [← hueq]
            norm_num
          rw [hfr]
          refine ⟨?_, ?_, ?_⟩
          · rw [hlsV_eval_m2 g r _
              (by rw [fract_of_mem _ (by norm_num) (by norm_num)]; norm_num)
              (by rw [fract_of_mem _ (by norm_num) (by norm_num)]; norm_num)]
          · rw [hlsV_eval_up g r _ (by rw [Int.fract_zero]; norm_num), Int.fract_zero]
            ring
          · rw [hlsV_eval_m1 g r _ (by
              rw [show (0 : ℚ) - 1 / 3 = 2 / 3 - 1 by ring, Int.fract_sub_one,
                fract_of_mem _ (by norm_num) (by norm_num)])]
            exact hbg'.symm
        · -- 0 < u ≤ 1
          have hfr : Int.fract (-u / 6) = 1 - u / 6 := by
            rw [show -u / 6 = (1 - u / 6) - 1 by ring, Int.fract_sub_one]
            exact fract_of_mem _ (by linarith) (by linarith)
          rw [hfr]
          refine ⟨?_, ?_, ?_⟩
          · have hf2 : Int.fract (1 - u / 6 + 1 / 3) = 1 / 3 - u / 6 := by
              rw [show 1 - u / 6 + 1 / 3 = (1 / 3 - u / 6) + 1 by ring, Int.fract_add_one]
              exact fract_of_mem _ (by linarith) (by linarith)
            rw [hlsV_eval_m2 g r _ (by rw [hf2]; linarith) (by rw [hf2]; linarith)]
          · have hf2 : Int.fract (1 - u / 6) = 1 - u / 6 :=
              fract_of_mem _ (by linarith) (by linarith)
            rw [hlsV_eval_m1 g r _ (by rw [hf2]; linarith)]
          · have hf2 : Int.fract (1 - u / 6 - 1 / 3) = 2 / 3 - u / 6 := by
              rw [show 1 - u / 6 - 1 / 3 = 2 / 3 - u / 6 by ring]
              exact fract_of_mem _ (by linarith) (by linarith)
            rw [hlsV_eval_down g r _ (by rw [hf2]; linarith) (by rw [hf2]; linarith), hf2]
            have h9 : (r - g) * (2 / 3 - (2 / 3 - u / 6)) * 6 = (r - g) * u := by ring
            rw [h9]
            linarith [hkey]
    · by_cases hG : g = max r (max g b)
      · have hrg : r ≤ g := by
          calc r ≤ max r (max g b) := le_max_left _ _
            _ = g := hG.symm
        have hbg : b ≤ g := by
          calc b ≤ max r (max g b) := le_trans (le_max_right _ _) (le_max_right _ _)
            _ = g := hG.symm
        have hmax : max r (max g b) = g := hG.symm
        rcases le_total b r with hbr | hrb
        · -- case C: b ≤ r ≤ g, minimum is b
          have hmin : min r (min g b) = b := by
            rw [min_eq_right (le_trans hbr hrg), min_eq_right hbr]
          have hblt : b < g := by
            have h' := hlt
            rw [hmin, hmax] at h'
            exact h'
          rw [hmin, hmax]
          rw [if_neg (fun hc => hR (hc.trans hG)), if_pos rfl]
          rw [hls_to_rgb_eval b g _ hb0 hg1 hblt]
          have hgbne : g - b ≠ 0 := sub_ne_zero.mpr (ne_of_gt hblt)
          set v := (r - b) / (g - b) with hv
          have hh0 : 2 + (g - r) / (g - b) - (g - b) / (g - b) = 2 - v := by
            rw [hv]
            field_simp
            ring
          rw [hh0]
          have hv0 : 0 ≤ v := div_nonneg (by linarith) (by linarith)
          have hv1 : v ≤ 1 := by
            rw [hv, div_le_one (by linarith)]
            linarith
          have hfr : Int.fract ((2 - v) / 6) = (2 - v) / 6 :=
            fract_of_mem _ (by linarith) (by linarith)
          rw [hfr]
          have hkey : (g - b) * v = r - b := by
            rw [hv]
            field_simp
          simp only [Prod.mk.injEq]
          rcases eq_or_lt_of_le hv0 with hveq | hvlt
          · -- v = 0, so r = b
            have hrb' : r = b := by
              have h' : (r - b) / (g - b) = 0 := by rw [← hv, ← hveq]
              rw [div_eq_zero_iff] at h'
              rcases h' with h' | h'
              · linarith
              · exact absurd h' hgbne
            refine ⟨?_, ?_, ?_⟩
            · have hf2 : Int.fract ((2 - v) / 6 + 1 / 3) = 2 / 3 := by
                rw [← hveq, show ((2 : ℚ) - 0) / 6 + 1 / 3 = 2 / 3 by norm_num]
                exact fract_of_mem _ (by norm_num) (by norm_num)
              rw [hlsV_eval_m1 b g _ (by rw [hf2])]
              exact hrb'.symm
            · rw [hlsV_eval_m2 b g _
                (by rw [fract_of_mem _ (by linarith) (by linarith)]; linarith)
                (by rw [fract_of_mem _ (by linarith) (by linarith)]; linarith)]
            · have hf2 : Int.fract ((2 - v) / 6 - 1 / 3) = 0 := by
                rw [← hveq, show ((2 : ℚ) - 0) / 6 - 1 / 3 = 0 by norm_num]
                exact Int.fract_zero
              rw [hlsV_eval_up b g _ (by rw [hf2]; norm_num), hf2]
              ring
          · -- 0 < v ≤ 1
            refine ⟨?_, ?_, ?_⟩
            · have hf2 : Int.fract ((2 - v) / 6 + 1 / 3) = (4 - v) / 6 := by
                rw [show (2 - v) / 6 + 1 / 3 = (4 - v) / 6 by ring]
                exact fract_of_mem _ (by linarith) (by linarith)
              rw [hlsV_eval_down b g _ (by rw [hf2]; linarith) (by rw [hf2]; linarith), hf2]
              have h9 : (g - b) * (2 / 3 - (4 - v) / 6) * 6 = (g - b) * v := by ring
              rw [h9]
              linarith [hkey]
            · rw [hlsV_eval_m2 b g _ (by rw [hfr]; linarith) (by rw [hfr]; linarith)]
            · have hf2 : Int.fract ((2 - v) / 6 - 1 / 3) = 1 - v / 6 := by
                rw [show (2 - v) / 6 - 1 / 3 = (1 - v / 6) - 1 by ring, Int.fract_sub_one]
                exact fract_of_mem _ (by linarith) (by linarith)
              rw [hlsV_eval_m1 b g _ (by rw [hf2]; linarith)]
        · -- case D: r ≤ b ≤ g, minimum is r
          have hmin : min r (min g b) = r := by
            rw [min_eq_right hbg, min_eq_left hrb]
          have hrlt : r < g := by
            have h' := hlt
            rw [hmin, hmax] at h'
            exact h'
          rw [hmin, hmax]
          rw [if_neg (fun hc => hR (hc.trans hG)), if_pos rfl]
          rw [hls_to_rgb_eval r g _ hr0 hg1 hrlt]
          have hgrne : g - r ≠ 0 := sub_ne_zero.mpr (ne_of_gt hrlt)
          set w := (b - r) / (g - r) with hw
          have hh0 : 2 + (g - r) / (g - r) - (g - b) / (g - r) = 2 + w := by
            rw [hw]
            field_simp
            ring
          rw [hh0]
          have hw0 : 0 ≤ w := div_nonneg (by linarith) (by linarith)
          have hw1 : w ≤ 1 := by
            rw [hw, div_le_one (by linarith)]
            linarith
          have hfr : Int.fract ((2 + w) / 6) = (2 + w) / 6 :=
            fract_of_mem _ (by linarith) (by linarith)
          rw [hfr]
          have hkey : (g - r) * w = b - r := by
            rw [hw]
            field_simp
          simp only [Prod.mk.injEq]
          refine ⟨?_, ?_, ?_⟩
          · have hf2 : Int.fract ((2 + w) / 6 + 1 / 3) = (4 + w) / 6 := by
              rw [show (2 + w) / 6 + 1 / 3 = (4 + w) / 6 by ring]
              exact fract_of_mem _ (by linarith) (by linarith)
            rw [hlsV_eval_m1 r g _ (by rw [hf2]; linarith)]
          · rcases eq_or_lt_of_le hw1 with hweq | hwlt
            · rw [hlsV_eval_down r g _ (by rw [hfr, hweq]; norm_num)
                (by rw [hfr]; linarith), hfr, hweq]
              ring
            · rw [hlsV_eval_m2 r g _ (by rw [hfr]; linarith) (by rw [hfr]; linarith)]
          · rcases eq_or_lt_of_le hw1 with hweq | hwlt
            · have hbg' : b = g := by
                have h' : w = 1 := hweq
                rw [hw, div_eq_one_iff_eq hgrne] at h'
                linarith
              have hf2 : Int.fract ((2 + w) / 6 - 1 / 3) = 1 / 6 := by
                rw [show (2 + w) / 6 - 1 / 3 = w / 6 by ring, hweq]
                exact fract_of_mem _ (by norm_num) (by norm_num)
              rw [hlsV_eval_m2 r g _ (by rw [hf2]) (by rw [hf2]; norm_num)]
              exact hbg'.symm
            · have hf2 : Int.fract ((2 + w) / 6 - 1 / 3) = w / 6 := by
                rw [show (2 + w) / 6 - 1 / 3 = w / 6 by ring]
                exact fract_of_mem _ (by linarith) (by linarith)
              rw [hlsV_eval_up r g _ (by rw [hf2]; linarith), hf2]
              linarith [hkey]
      · -- b is the maximum
        have hmaxb : max r (max g b) = b := by
          rcases max_choice r (max g b) with h' | h'
          · exact absurd h'.symm hR
          · rcases max_choice g b with h | h
            · exact absurd (h'.trans h).symm hG
            · exact h'.trans h
        have hrb : r ≤ b := by
          calc r ≤ max r (max g b) := le_max_left _ _
            _ = b := hmaxb
        have hgb : g ≤ b := by
          calc g ≤ max r (max g b) := le_trans (le_max_left _ _) (le_max_right _ _)
            _ = b := hmaxb
        have hRne' : ¬ (r = b) := fun hc => hR (hc.trans hmaxb.symm)
        have hGne' : ¬ (g = b) := fun hc => hG (hc.trans hmaxb.symm)
        rcases le_total g r with hgr | hrg
        · -- case E: g ≤ r ≤ b, minimum is g
          have hmin : min r (min g b) = g := by
            rw [min_eq_left hgb, min_eq_right hgr]
          have hglt : g < b := by
            have h' := hlt
            rw [hmin, hmaxb] at h'
            exact h'
          rw [hmin, hmaxb, if_neg hRne', if_neg hGne']
          rw [hls_to_rgb_eval g b _ hg0 hb1 hglt]
          have hbgne : b - g ≠ 0 := sub_ne_zero.mpr (ne_of_gt hglt)
          set p := (r - g) / (b - g) with hp
          have hh0 : 4 + (b - g) / (b - g) - (b - r) / (b - g) = 4 + p := by
            rw [hp]
            field_simp
            ring
          rw [hh0]
          have hp0 : 0 ≤ p := div_nonneg (by linarith) (by linarith)
          have hp1 : p ≤ 1 := by
            rw [hp, div_le_one (by linarith)]
            linarith
          have hfr : Int.fract ((4 + p) / 6) = (4 + p) / 6 :=
            fract_of_mem _ (by linarith) (by linarith)
          rw [hfr]
          have hkey : (b - g) * p = r - g := by
            rw [hp]
            field_simp
          simp only [Prod.mk.injEq]
          refine ⟨?_, ?_, ?_⟩
          · rcases eq_or_lt_of_le hp1 with hpeq | hplt
            · have hrb' : r = b := by
                have h' : p = 1 := hpeq
                rw [hp, div_eq_one_iff_eq hbgne] at h'
                linarith
              have hf2 : Int.fract ((4 + p) / 6 + 1 / 3) = 1 / 6 := by
                rw [show (4 + p) / 6 + 1 / 3 = p / 6 + 1 by ring, Int.fract_add_one, hpeq]
                exact fract_of_mem _ (by norm_num) (by norm_num)
              rw [hlsV_eval_m2 g b _ (by rw [hf2]) (by rw [hf2]; norm_num)]
              exact hrb'.symm
            · have hf2 : Int.fract ((4 + p) / 6 + 1 / 3) = p / 6 := by
                rw [show (4 + p) / 6 + 1 / 3 = p / 6 + 1 by ring, Int.fract_add_one]
                exact fract_of_mem _ (by linarith) (by linarith)
              rw [hlsV_eval_up g b _ (by rw [hf2]; linarith), hf2]
              linarith [hkey]
          · rw [hlsV_eval_m1 g b _ (by rw [hfr]; linarith)]
          · rcases eq_or_lt_of_le hp1 with hpeq | hplt
            · have hf2 : Int.fract ((4 + p) / 6 - 1 / 3) = (2 + p) / 6 := by
                rw [show (4 + p) / 6 - 1 / 3 = (2 + p) / 6 by ring]
                exact fract_of_mem _ (by linarith) (by linarith)
              rw [hlsV_eval_down g b _ (by rw [hf2, hpeq]; norm_num)
                (by rw [hf2]; linarith), hf2, hpeq]
              ring
            · have hf2 : Int.fract ((4 + p) / 6 - 1 / 3) = (2 + p) / 6 := by
                rw [show (4 + p) / 6 - 1 / 3 = (2 + p) / 6 by ring]
                exact fract_of_mem _ (by linarith) (by linarith)
              rw [hlsV_eval_m2 g b _ (by rw [hf2]; linarith) (by rw [hf2]; linarith)]
        · -- case F: r ≤ g ≤ b, minimum is r
          have hmin : min r (min g b) = r := by
            rw [min_eq_left hgb, min_eq_left hrg]
          have hrlt : r < b := by
            have h' := hlt
            rw [hmin, hmaxb] at h'
            exact h'
          rw [hmin, hmaxb, if_neg hRne', if_neg hGne']
          rw [hls_to_rgb_eval r b _ hr0 hb1 hrlt]
          have hbrne : b - r ≠ 0 := sub_ne_zero.mpr (ne_of_gt hrlt)
          set q := (g - r) / (b - r) with hqd
          have hh0 : 4 + (b - g) / (b - r) - (b - r) / (b - r) = 4 - q := by
            rw [hqd]
            field_simp
            ring
          rw [hh0]
          have hq0 : 0 ≤ q := div_nonneg (by linarith) (by linarith)
          have hq1 : q ≤ 1 := by
            rw [hqd, div_le_one (by linarith)]
            linarith
          have hfr : Int.fract ((4 - q) / 6) = (4 - q) / 6 :=
            fract_of_mem _ (by linarith) (by linarith)
          rw [hfr]
          have hkey : (b - r) * q = g - r := by
            rw [hqd]
            field_simp
          simp only [Prod.mk.injEq]
          rcases eq_or_lt_of_le hq0 with hqeq | hqlt
          · -- q = 0, so g = r
            have hgr' : g = r := by
              have h' : (g - r) / (b - r) = 0 := by rw [← hqd, ← hqeq]
              rw [div_eq_zero_iff] at h'
              rcases h' with h' | h'
              · linarith
              · exact absurd h' hbrne
            refine ⟨?_, ?_, ?_⟩
            · have hf2 : Int.fract ((4 - q) / 6 + 1 / 3) = 0 := by
                rw [show (4 - q) / 6 + 1 / 3 = -q / 6 + 1 by ring, Int.fract_add_one,
                  ← hqeq, show -(0 : ℚ) / 6 = 0 by norm_num]
                exact Int.fract_zero
              rw [hlsV_eval_up r b _ (by rw [hf2]; norm_num), hf2]
              ring
            · rw [hlsV_eval_m1 r b _ (by rw [hfr, ← hqeq]; norm_num)]
              exact hgr'.symm
            · have hf2 : Int.fract ((4 - q) / 6 - 1 / 3) = 1 / 3 := by
                rw [← hqeq, show ((4 : ℚ) - 0) / 6 - 1 / 3 = 1 / 3 by norm_num]
                exact fract_of_mem _ (by norm_num) (by norm_num)
              rw [hlsV_eval_m2 r b _ (by rw [hf2]; norm_num) (by rw [hf2]; norm_num)]
          · -- 0 < q ≤ 1
            refine ⟨?_, ?_, ?_⟩
            · have hf2 : Int.fract ((4 - q) / 6 + 1 / 3) = 1 - q / 6 := by
                rw [show (4 - q) / 6 + 1 / 3 = 1 - q / 6 by ring]
                exact fract_of_mem _ (by linarith) (by linarith)
              rw [hlsV_eval_m1 r b _ (by rw [hf2]; linarith)]
            · rw [hlsV_eval_down r b _ (by rw [hfr]; linarith) (by rw [hfr]; linarith), hfr]
              have h9 : (b - r) * (2 / 3 - (4 - q) / 6) * 6 = (b - r) * q := by ring
              rw [h9]
              linarith [hkey]
            · have hf2 : Int.fract ((4 - q) / 6 - 1 / 3) = (2 - q) / 6 := by
                rw [show (4 - q) / 6 - 1 / 3 = (2 - q) / 6 by ring]
                exact fract_of_mem _ (by linarith) (by linarith)
              rw [hlsV_eval_m2 r b _ (by rw [hf2]; linarith) (by rw [hf2]; linarith)]

/-- Channel scaled to [0, 1]. -/
theorem chan_mem (n : ℕ) (hn : n ≤ 255) : 0 ≤ (n : ℚ) / 255 ∧ (n : ℚ) / 255 ≤ 1 := by
  constructor
  · positivity
  · rw [div_le_one (by norm_num)]
    exact_mod_cast hn

/-- A colour's HSL saturation and lightness lie in [0, 1]. -/
theorem hsl_sl_mem (c : Colour) :
    (0 ≤ c.hsl.2.1 ∧ c.hsl.2.1 ≤ 1) ∧ (0 ≤ c.hsl.2.2 ∧ c.hsl.2.2 ≤ 1) := by
  obtain ⟨hr0, hr1⟩ := chan_mem c.r c.r_le
  obtain ⟨hg0, hg1⟩ := chan_mem c.g c.g_le
  obtain ⟨hb0, hb1⟩ := chan_mem c.b c.b_le
  have h := rgb_to_hls_sl_mem ((c.r : ℚ) / 255) ((c.g : ℚ) / 255) ((c.b : ℚ) / 255)
    hr0 hr1 hg0 hg1 hb0 hb1
  simp only [Colour.hsl]
  exact ⟨h.2, h.1⟩

/-- Round trip at a colour's own HSL triple (in the `(h, s, l)` order of the
`hsl` property): the exact normalized channels come back. -/
theorem hsl_rt (c : Colour) :
    hls_to_rgb c.hsl.1 c.hsl.2.2 c.hsl.2.1 =
      ((c.r : ℚ) / 255, (c.g : ℚ) / 255, (c.b : ℚ) / 255) := by
  obtain ⟨hr0, hr1⟩ := chan_mem c.r c.r_le
  obtain ⟨hg0, hg1⟩ := chan_mem c.g c.g_le
  obtain ⟨hb0, hb1⟩ := chan_mem c.b c.b_le
  simp only [Colour.hsl]
  exact hls_rt _ _ _ hr0 hr1 hg0 hg1 hb0 hb1

/-- `int()` truncation sends `v * 255` with `v ∈ [0, 1]` into [0, 255]. -/
theorem pyInt_scale_mem (v : ℚ) (h0 : 0 ≤ v) (h1 : v ≤ 1) :
    0 ≤ pyInt (v * 255) ∧ pyInt (v * 255) ≤ 255 := by
  rw [pyInt, if_neg (by rw [not_lt]; nlinarith)]
  constructor
  · exact Int.floor_nonneg.mpr (by nlinarith)
  · have h2 : (⌊v * 255⌋ : ℚ) ≤ ((255 : ℤ) : ℚ) :=
      le_trans (Int.floor_le _) (by push_cast; nlinarith)
    exact_mod_cast h2

/-- `int()` truncation is monotone on nonnegative inputs. -/
theorem pyInt_le_pyInt (a b : ℚ) (ha : 0 ≤ a) (hab : a ≤ b) : pyInt a ≤ pyInt b := by
  rw [pyInt, pyInt, if_neg (by rw [not_lt]; linarith), if_neg (by rw [not_lt]; linarith)]
  exact Int.floor_le_floor hab

/-- `int()` truncation is the identity on naturals. -/
theorem pyInt_natCast (n : ℕ) : pyInt ((n : ℚ)) = (n : ℤ) := by
  rw [pyInt, if_neg (by rw [not_lt]; positivity)]
  exact_mod_cast Int.floor_natCast n

/-- The validating constructor succeeds on the truncated, 255-scaled channels
of any `hls_to_rgb` output with lightness and saturation in [0, 1]. -/
theorem deriv_isSome (x l s : ℚ) (hs0 : 0 ≤ s) (hs1 : s ≤ 1) (hl0 : 0 ≤ l) (hl1 : l ≤ 1) :
    (mkColour ((pyInt ((hls_to_rgb x l s).1 * 255) : ℤ) : ℚ)
      ((pyInt ((hls_to_rgb x l s).2.1 * 255) : ℤ) : ℚ)
      ((pyInt ((hls_to_rgb x l s).2.2 * 255) : ℤ) : ℚ)).isSome := by
  obtain ⟨⟨a0, a1⟩, ⟨b0, b1⟩, ⟨c0, c1⟩⟩ := hls_to_rgb_bounds x l s hs0 hs1 hl0 hl1
  rw [mkColour_int_isSome]
  obtain ⟨p1, p2⟩ := pyInt_scale_mem _ a0 a1
  obtain ⟨q1, q2⟩ := pyInt_scale_mem _ b0 b1
  obtain ⟨s1', s2'⟩ := pyInt_scale_mem _ c0 c1
  exact ⟨p1, p2, q1, q2, s1', s2'⟩

/-- `get_analogous` always returns a pair. -/
theorem get_analogous_isSome (c : Colour) (angle : ℚ) : (c.get_analogous angle).isSome := by
  obtain ⟨⟨hs0, hs1⟩, ⟨hl0, hl1⟩⟩ := hsl_sl_mem c
  simp only [Colour.get_analogous]
  have h1 := deriv_isSome (Int.fract (c.hsl.1 + angle / 360)) c.hsl.2.2 c.hsl.2.1
    hs0 hs1 hl0 hl1
  have h2 := deriv_isSome (Int.fract (c.hsl.1 - angle / 360)) c.hsl.2.2 c.hsl.2.1
    hs0 hs1 hl0 hl1
  rw [Option.isSome_iff_exists] at h1 h2
  obtain ⟨c1, hc1⟩ := h1
  obtain ⟨c2, hc2⟩ := h2
  rw [hc1, hc2]
  rfl

/-- C10: for every valid colour, every derivation operation succeeds: the
truncated 255-scaled channels handed to the validating constructor always lie
in [0, 255], so the constructor's failure branch is unreachable (`lighten` and
`darken` taken with a nonnegative amount, `get_analogous` at any angle). -/
theorem derivations_never_fail (c : Colour) (amount angle : ℚ) (h0 : 0 ≤ amount) :
    (c.lighten amount).isSome ∧ (c.darken amount).isSome ∧ c.get_pastel.isSome ∧
      c.get_complementary.isSome ∧ (c.get_analogous angle).isSome ∧
      c.get_triadic.isSome := by
  obtain ⟨⟨hs0, hs1⟩, ⟨hl0, hl1⟩⟩ := hsl_sl_mem c
  refine ⟨?_, ?_, ?_, ?_, get_analogous_isSome c angle, get_analogous_isSome c 120⟩
  · simp only [Colour.lighten]
    exact deriv_isSome _ _ _ hs0 hs1 (le_min (by norm_num) (by linarith)) (min_le_left _ _)
  · simp only [Colour.darken]
    exact deriv_isSome _ _ _ hs0 hs1 (le_max_left _ _) (max_le (by norm_num) (by linarith))
  · simp only [Colour.get_pastel]
    exact deriv_isSome _ _ _ (le_trans (by norm_num) (le_max_left _ _))
      (max_le (by norm_num) (by linarith)) (le_min (by norm_num) (by linarith))
      (le_trans (min_le_left _ _) (by norm_num))
  · simp only [Colour.get_complementary]
    exact deriv_isSome _ _ _ hs0 hs1 hl0 hl1

/-- C10 witness: the derivations succeed on pure red with amount 1/2, angle 30. -/
theorem derivations_never_fail_witness :
    0 ≤ (1 : ℚ) / 2 ∧
      ((colRed.lighten (1 / 2)).isSome ∧ (colRed.darken (1 / 2)).isSome ∧
        colRed.get_pastel.isSome ∧ colRed.get_complementary.isSome ∧
        (colRed.get_analogous 30).isSome ∧ colRed.get_triadic.isSome) :=
  ⟨by norm_num, derivations_never_fail colRed (1 / 2) 30 (by norm_num)⟩

/-- `lighten` never decreases any channel. -/
theorem lighten_ge (c : Colour) (x : ℚ) (h0 : 0 ≤ x) (c' : Colour)
    (hc' : c.lighten x = some c') : c.r ≤ c'.r ∧ c.g ≤ c'.g ∧ c.b ≤ c'.b := by
  obtain ⟨⟨hs0, hs1⟩, ⟨hl0, hl1⟩⟩ := hsl_sl_mem c
  have hlle : c.hsl.2.2 ≤ min 1 (c.hsl.2.2 + x) := le_min hl1 (by linarith)
  have hl'0 : 0 ≤ min 1 (c.hsl.2.2 + x) := le_min (by norm_num) (by linarith)
  have hl'1 : min 1 (c.hsl.2.2 + x) ≤ 1 := min_le_left _ _
  obtain ⟨⟨a0, a1⟩, ⟨b0, b1⟩, ⟨d0, d1⟩⟩ :=
    hls_to_rgb_bounds c.hsl.1 (min 1 (c.hsl.2.2 + x)) c.hsl.2.1 hs0 hs1 hl'0 hl'1
  have hmono := hls_to_rgb_mono c.hsl.1 c.hsl.2.1 c.hsl.2.2 (min 1 (c.hsl.2.2 + x))
    hs0 hs1 hlle
  rw [hsl_rt] at hmono
  simp only [prod3_fst, prod3_snd1, prod3_snd2] at hmono
  obtain ⟨m1, m2, m3⟩ := hmono
  obtain ⟨p1, p2⟩ := pyInt_scale_mem _ a0 a1
  obtain ⟨q1, q2⟩ := pyInt_scale_mem _ b0 b1
  obtain ⟨s1', s2'⟩ := pyInt_scale_mem _ d0 d1
  have key1 : (c.r : ℤ) ≤
      pyInt ((hls_to_rgb c.hsl.1 (min 1 (c.hsl.2.2 + x)) c.hsl.2.1).1 * 255) := by
    have h' := pyInt_le_pyInt ((c.r : ℚ)) ((hls_to_rgb c.hsl.1 (min 1 (c.hsl.2.2 + x)) c.hsl.2.1).1 * 255) (by positivity) (by linarith [m1])
    rwa [pyInt_natCast] at h'
  have key2 : (c.g : ℤ) ≤
      pyInt ((hls_to_rgb c.hsl.1 (min 1 (c.hsl.2.2 + x)) c.hsl.2.1).2.1 * 255) := by
    have h' := pyInt_le_pyInt ((c.g : ℚ)) ((hls_to_rgb c.hsl.1 (min 1 (c.hsl.2.2 + x)) c.hsl.2.1).2.1 * 255) (by positivity) (by linarith [m2])
    rwa [pyInt_natCast] at h'
  have key3 : (c.b : ℤ) ≤
      pyInt ((hls_to_rgb c.hsl.1 (min 1 (c.hsl.2.2 + x)) c.hsl.2.1).2.2 * 255) := by
    have h' := pyInt_le_pyInt ((c.b : ℚ)) ((hls_to_rgb c.hsl.1 (min 1 (c.hsl.2.2 + x)) c.hsl.2.1).2.2 * 255) (by positivity) (by linarith [m3])
    rwa [pyInt_natCast] at h'
  simp only [Colour.lighten] at hc'
  rw [mkColour_int_eq _ _ _ p1 p2 q1 q2 s1' s2', Option.some.injEq] at hc'
  subst hc'
  refine ⟨?_, ?_, ?_⟩ <;> dsimp only <;> omega

/-- `darken` never increases any channel. -/
theorem darken_le (c : Colour) (x : ℚ) (h0 : 0 ≤ x) (c' : Colour)
    (hc' : c.darken x = some c') : c'.r ≤ c.r ∧ c'.g ≤ c.g ∧ c'.b ≤ c.b := by
  obtain ⟨⟨hs0, hs1⟩, ⟨hl0, hl1⟩⟩ := hsl_sl_mem c
  have hlle : max 0 (c.hsl.2.2 - x) ≤ c.hsl.2.2 := max_le hl0 (by linarith)
  have hl'0 : 0 ≤ max 0 (c.hsl.2.2 - x) := le_max_left _ _
  have hl'1 : max 0 (c.hsl.2.2 - x) ≤ 1 := max_le (by norm_num) (by linarith)
  obtain ⟨⟨a0, a1⟩, ⟨b0, b1⟩, ⟨d0, d1⟩⟩ :=
    hls_to_rgb_bounds c.hsl.1 (max 0 (c.hsl.2.2 - x)) c.hsl.2.1 hs0 hs1 hl'0 hl'1
  have hmono := hls_to_rgb_mono c.hsl.1 c.hsl.2.1 (max 0 (c.hsl.2.2 - x)) c.hsl.2.2
    hs0 hs1 hlle
  rw [hsl_rt] at hmono
  simp only [prod3_fst, prod3_snd1, prod3_snd2] at hmono
  obtain ⟨m1, m2, m3⟩ := hmono
  obtain ⟨p1, p2⟩ := pyInt_scale_mem _ a0 a1
  obtain ⟨q1, q2⟩ := pyInt_scale_mem _ b0 b1
  obtain ⟨s1', s2'⟩ := pyInt_scale_mem _ d0 d1
  have key1 : pyInt ((hls_to_rgb c.hsl.1 (max 0 (c.hsl.2.2 - x)) c.hsl.2.1).1 * 255) ≤
      (c.r : ℤ) := by
    have h' := pyInt_le_pyInt ((hls_to_rgb c.hsl.1 (max 0 (c.hsl.2.2 - x)) c.hsl.2.1).1 * 255) ((c.r : ℚ)) (by nlinarith [a0]) (by linarith [m1])
    rwa [pyInt_natCast] at h'
  have key2 : pyInt ((hls_to_rgb c.hsl.1 (max 0 (c.hsl.2.2 - x)) c.hsl.2.1).2.1 * 255) ≤
      (c.g : ℤ) := by
    have h' := pyInt_le_pyInt ((hls_to_rgb c.hsl.1 (max 0 (c.hsl.2.2 - x)) c.hsl.2.1).2.1 * 255) ((c.g : ℚ)) (by nlinarith [b0]) (by linarith [m2])
    rwa [pyInt_natCast] at h'
  have key3 : pyInt ((hls_to_rgb c.hsl.1 (max 0 (c.hsl.2.2 - x)) c.hsl.2.1).2.2 * 255) ≤
      (c.b : ℤ) := by
    have h' := pyInt_le_pyInt ((hls_to_rgb c.hsl.1 (max 0 (c.hsl.2.2 - x)) c.hsl.2.1).2.2 * 255) ((c.b : ℚ)) (by nlinarith [d0]) (by linarith [m3])
    rwa [pyInt_natCast] at h'
  simp only [Colour.darken] at hc'
  rw [mkColour_int_eq _ _ _ p1 p2 q1 q2 s1' s2', Option.some.injEq] at hc'
  subst hc'
  refine ⟨?_, ?_, ?_⟩ <;> dsimp only <;> omega

/-- Lightening white is the identity. -/
theorem white_lighten (x : ℚ) (h0 : 0 ≤ x) : colWhite.lighten x = some colWhite := by
  have hW : colWhite.hsl = (0, 0, 1) := by
    simp only [Colour.hsl, colWhite]
    norm_num [rgb_to_hls]
  simp only [Colour.lighten, hW, prod3_fst, prod3_snd1, prod3_snd2]
  rw [min_eq_left (by linarith), hls_to_rgb_zero_s]
  simp only [prod3_fst, prod3_snd1, prod3_snd2]
  rw [show (1 : ℚ) * 255 = ((255 : ℤ) : ℚ) by norm_num]
  rw [show pyInt ((255 : ℤ) : ℚ) = 255 from by
    rw [pyInt, if_neg (by norm_num)]; exact Int.floor_intCast 255]
  rw [mkColour_int_eq 255 255 255 (by norm_num) (by norm_num) (by norm_num) (by norm_num)
    (by norm_num) (by norm_num)]
  rfl

/-- Darkening black is the identity. -/
theorem black_darken (x : ℚ) (h0 : 0 ≤ x) : colBlack.darken x = some colBlack := by
  have hB : colBlack.hsl = (0, 0, 0) := by
    simp only [Colour.hsl, colBlack]
    norm_num [rgb_to_hls]
  simp only [Colour.darken, hB, prod3_fst, prod3_snd1, prod3_snd2]
  rw [max_eq_left (by linarith), hls_to_rgb_zero_s]
  simp only [prod3_fst, prod3_snd1, prod3_snd2]
  rw [show (0 : ℚ) * 255 = ((0 : ℤ) : ℚ) by norm_num]
  rw [show pyInt ((0 : ℤ) : ℚ) = 0 from by
    rw [pyInt, if_neg (by norm_num)]; exact Int.floor_intCast 0]
  rw [mkColour_int_eq 0 0 0 (by norm_num) (by norm_num) (by norm_num) (by norm_num)
    (by norm_num) (by norm_num)]
  rfl

/-- C4: for every colour and amount in [0, 1], `lighten` never decreases and
`darken` never increases any RGB channel, and white resp. black are fixed
points of `lighten` resp. `darken`. -/
theorem lighten_darken_monotone (c : Colour) (x : ℚ) (h0 : 0 ≤ x) (h1 : x ≤ 1) :
    (∀ c', c.lighten x = some c' → c.r ≤ c'.r ∧ c.g ≤ c'.g ∧ c.b ≤ c'.b) ∧
    (∀ c', c.darken x = some c' → c'.r ≤ c.r ∧ c'.g ≤ c.g ∧ c'.b ≤ c.b) ∧
    colWhite.lighten x = some colWhite ∧ colBlack.darken x = some colBlack :=
  ⟨fun c' hc' => lighten_ge c x h0 c' hc', fun c' hc' => darken_le c x h0 c' hc',
    white_lighten x h0, black_darken x h0⟩

/-- C4 witness: at amount 1/2 the white and black fixed-point equations hold. -/
theorem lighten_darken_monotone_witness :
    (0 ≤ (1 : ℚ) / 2 ∧ (1 : ℚ) / 2 ≤ 1) ∧
      colWhite.lighten (1 / 2) = some colWhite ∧
      colBlack.darken (1 / 2) = some colBlack :=
  ⟨⟨by norm_num, by norm_num⟩,
    (lighten_darken_monotone colWhite (1 / 2) (by norm_num) (by norm_num)).2.2⟩
